import Mathlib

/-!
Verification of the road-graph / A* / matching-engine repository.

The C++ sources are embedded shallowly:

* `double` values that only ever hold exact decimal inputs and results of
  field operations are modelled as `Rat` (exact real arithmetic on the
  rational inputs used by the theorems).
* Values that may be `+inf` (A* tentative costs, route results) are
  modelled as `WithTop Rat`.
* The shared-pointer aliasing between `Graph::edges_` and each node's
  adjacency list is modelled by storing, in each node, the *indices* of its
  edges inside the graph's edge list, so that a weight update through the
  edge list is visible through the adjacency view, exactly as with the
  shared pointers.
* External libraries (H3 cell indexing, the osmium reader) and
  transcendental geometry (haversine, the equirectangular projection
  `to_xy`) are modelled as oracle parameters: every theorem quantifies over
  the oracle, and counterexamples instantiate it with a concrete rational
  stand-in.
-/

namespace Spec2Proof

/- Batteries marks the `Rat` field operations `@[irreducible]`, which blocks
compile-time evaluation by `decide` on concrete rational inputs. Restoring
default reducibility only re-enables that evaluation; it has no effect on
soundness (the kernel checks every proof as usual). -/
set_option allowUnsafeReducibility true
attribute [local reducible] Rat.add Rat.sub Rat.mul Rat.div Rat.neg Rat.inv Rat.blt

/-- Update the element at index `i` of a list (models in-place mutation of a
`std::vector` entry). Out-of-range indices leave the list unchanged. -/
def updAt {α : Type} (l : List α) (i : Nat) (f : α → α) : List α :=
  match l, i with
  | [], _ => []
  | x :: xs, 0 => f x :: xs
  | x :: xs, n + 1 => x :: updAt xs n f

/-- Apply `f` to the first element satisfying `p` and keep the rest unchanged
(models a C++ loop that mutates the first match and then returns). -/
def updFirst {α : Type} (p : α → Bool) (f : α → α) : List α → List α
  | [] => []
  | x :: xs => if p x then f x :: xs else x :: updFirst p f xs

/-- Point update of a function (models writing one slot of a C++ array). -/
def updFn {α : Type} [DecidableEq α] {β : Type} (g : α → β) (a : α) (b : β) : α → β :=
  fun x => if x = a then b else g x

/-! ## The Graph data model (graph.h / part_009 graph.cpp) -/

/-- Edge record: `struct Edge { int id; int from; int to; double weight; }`.
`from`/`to` are node indices; `from` is a Lean keyword, hence `efrom`/`eto`. -/
structure GEdge where
  id : Int
  efrom : Nat
  eto : Nat
  weight : Rat
deriving DecidableEq, Repr

/-- Node record: `struct Node { int id; double lat; double lon; vector<shared_ptr<Edge>> edges; }`.
The adjacency list stores indices into `Graph.edges` (each C++ adjacency
pointer aliases exactly one entry of `Graph::edges_`, pushed by `add_edge`). -/
structure GNode where
  id : Int
  lat : Rat
  lon : Rat
  edges : List Nat
deriving DecidableEq, Repr

/-- The graph owns all nodes and all edges. -/
structure Graph where
  nodes : List GNode
  edges : List GEdge
deriving DecidableEq, Repr

def dummyEdge : GEdge := ⟨0, 0, 0, 0⟩

def dummyNode : GNode := ⟨0, 0, 0, []⟩

namespace Graph

def empty : Graph := ⟨[], []⟩

/-- `Graph::add_node` (part_009, lines 6-15): builds the node from the given
id and coordinates and appends it. The source performs no validation of `id`. -/
def add_node (g : Graph) (id : Int) (lat lon : Rat) : Graph :=
  { g with nodes := g.nodes ++ [⟨id, lat, lon, []⟩] }

/-- `Graph::add_edge` (part_009, lines 17-32): asserts both endpoints are valid
node indices, then pushes one shared edge record to the graph's edge vector and
its index to `nodes_[from].edges`. The failed-assert (abort) case is modelled
as leaving the graph unchanged; no theorem relies on that branch. -/
def add_edge (g : Graph) (id : Int) (f t : Nat) (w : Rat) : Graph :=
  if f < g.nodes.length ∧ t < g.nodes.length then
    { nodes := updAt g.nodes f (fun n => { n with edges := n.edges ++ [g.edges.length] }),
      edges := g.edges ++ [⟨id, f, t, w⟩] }
  else g

/-- `Graph::update_edge_weight` (part_009, lines 34-43): scans `edges_` in
order, overwrites the weight of the first edge whose `id` matches, and
immediately returns; edges after the first match are not visited. -/
def update_edge_weight (g : Graph) (id : Int) (w : Rat) : Graph :=
  { g with edges := updFirst (fun e => e.id == id) (fun e => { e with weight := w }) g.edges }

/-- `Graph::neighbors` (graph.h): the `(to, weight)` pairs of the node's
outgoing edges, read through the shared edge records. -/
def neighbors (g : Graph) (idx : Nat) : List (Nat × Rat) :=
  (g.nodes.getD idx dummyNode).edges.map
    (fun j => ((g.edges.getD j dummyEdge).eto, (g.edges.getD j dummyEdge).weight))

end Graph

/-! ## RoutingEngine edge update by endpoints (part_005, lines 191-201) -/

namespace RoutingEngine

/-- `RoutingEngine::update_edge(int from, int to, double weight)`: scans the
edge vector for the first edge with matching endpoints and, if found, calls
`Graph::update_edge_weight` with that edge's `id` (not with its position). -/
def update_edge_by_nodes (g : Graph) (f t : Nat) (w : Rat) : Graph :=
  match g.edges.find? (fun e => e.efrom == f && e.eto == t) with
  | some e => Graph.update_edge_weight g e.id w
  | none => g

end RoutingEngine

/-! ## Small concrete graphs used as counterexample inputs -/

/-- Two nodes and a two-way road added under the single shared id 7, exactly
as `GraphBuilder::build_graph` adds a bidirectional way (graphbuilder.cpp,
lines 116-119). -/
def g2 : Graph :=
  (((Graph.empty.add_node 0 0 0).add_node 1 0 1).add_edge 7 0 1 5).add_edge 7 1 0 5

/-! ## Helper lemmas about updFirst and find? -/

theorem updFirst_of_none {α : Type} (p : α → Bool) (f : α → α) (l : List α)
    (h : ∀ x ∈ l, p x = false) : updFirst p f l = l := by
  induction l with
  | nil => rfl
  | cons x xs ih =>
    simp only [updFirst, h x (List.mem_cons_self x xs)]
    simp only [Bool.false_eq_true, if_false, List.cons.injEq, true_and]
    exact ih (fun y hy => h y (List.mem_cons_of_mem x hy))

theorem updFirst_eq_set {α : Type} (p : α → Bool) (f : α → α) (d : α) (l : List α)
    (j : Nat) (hj : j < l.length) (hpj : p (l.getD j d) = true)
    (hbefore : ∀ k, k < j → p (l.getD k d) = false) :
    updFirst p f l = l.set j (f (l.getD j d)) := by
  induction l generalizing j with
  | nil => simp at hj
  | cons x xs ih =>
    cases j with
    | zero =>
      simp only [List.getD_cons_zero] at hpj
      simp [updFirst, hpj]
    | succ n =>
      have hx : p x = false := by
        have := hbefore 0 (Nat.succ_pos n)
        simpa using this
      simp only [updFirst, hx, Bool.false_eq_true, if_false, List.getD_cons_succ,
        List.set_cons_succ, List.cons.injEq, true_and]
      exact ih n (by simpa using hj) (by simpa using hpj)
        (fun k hk => by
          have := hbefore (k + 1) (Nat.succ_lt_succ hk)
          simpa using this)

theorem find?_eq_getD {α : Type} (p : α → Bool) (d : α) (l : List α)
    (j : Nat) (hj : j < l.length) (hpj : p (l.getD j d) = true)
    (hbefore : ∀ k, k < j → p (l.getD k d) = false) :
    l.find? p = some (l.getD j d) := by
  induction l generalizing j with
  | nil => simp at hj
  | cons x xs ih =>
    cases j with
    | zero =>
      simp only [List.getD_cons_zero] at hpj ⊢
      simp [List.find?, hpj]
    | succ n =>
      have hx : p x = false := by
        have := hbefore 0 (Nat.succ_pos n)
        simpa using this
      simp only [List.find?, hx, List.getD_cons_succ]
      exact ih n (by simpa using hj) (by simpa using hpj)
        (fun k hk => by
          have := hbefore (k + 1) (Nat.succ_lt_succ hk)
          simpa using this)

/-! ## Claim C2: update_edge_weight by id -/

/-- C2 counterexample: the claim states that `update_edge_weight(id, w)`
overwrites the weight of every edge whose id matches and is a no-op when no
edge has that id. On the two-way road `g2` (both directed edges share id 7)
`update_edge_weight 7 9` leaves the second directed edge (index 1) at weight
5, because the source returns after the first match. -/
theorem c2_counterexample :
    ¬ (∀ (g : Graph) (id : Int) (w : Rat),
        (∀ j, j < g.edges.length → (g.edges.getD j dummyEdge).id = id →
          ((Graph.update_edge_weight g id w).edges.getD j dummyEdge).weight = w) ∧
        ((∀ e ∈ g.edges, e.id ≠ id) → Graph.update_edge_weight g id w = g)) := by
  intro h
  have h1 := (h g2 7 9).1 1 (by decide) (by decide)
  exact absurd h1 (by decide)

/-- C2 amended: `update_edge_weight(id, w)` overwrites the weight of only the
FIRST edge (in edge-vector order) whose id matches and leaves every later
edge — in particular the second directed edge of a two-way road sharing the
id — unchanged; it is a no-op when no edge has that id. -/
theorem c2_update_edge_weight_first_match (g : Graph) (id : Int) (w : Rat) :
    ((∀ e ∈ g.edges, e.id ≠ id) → Graph.update_edge_weight g id w = g) ∧
    (∀ j, j < g.edges.length → (g.edges.getD j dummyEdge).id = id →
      (∀ k, k < j → (g.edges.getD k dummyEdge).id ≠ id) →
      Graph.update_edge_weight g id w =
        { g with edges :=
            g.edges.set j { g.edges.getD j dummyEdge with weight := w } }) := by
  constructor
  · intro h
    show ({ g with edges := _ } : Graph) = g
    rw [updFirst_of_none]
    intro e he
    simpa using h e he
  · intro j hj hpj hbefore
    show ({ g with edges := _ } : Graph) = _
    rw [updFirst_eq_set (fun e => e.id == id) _ dummyEdge g.edges j hj
      (by simpa using hpj) (fun k hk => by simpa using hbefore k hk)]

/-- C2 witness: the amended theorem applied to the concrete graph `g2`:
updating id 7 to weight 9 rewrites exactly the first directed edge. -/
theorem c2_witness :
    Graph.update_edge_weight g2 7 9 =
      { g2 with edges := g2.edges.set 0 { g2.edges.getD 0 dummyEdge with weight := 9 } } :=
  (c2_update_edge_weight_first_match g2 7 9).2 0 (by decide) (by decide)
    (fun k hk => absurd hk (by omega))

/-! ## Claim C6: update_edge by endpoint pair -/

/-- C6 counterexample: the claim states that `update_edge(from, to, w)` changes
the weight of only the first edge whose endpoints match, and that every other
edge — including the reverse directed edge of the same road — keeps its
weight. On `g2`, `update_edge(1, 0, 9)` finds the endpoint-matching edge at
index 1, but then updates by its shared id 7, which rewrites the REVERSE edge
at index 0 and leaves edge 1 unchanged. -/
theorem c6_counterexample :
    ¬ (∀ (g : Graph) (f t : Nat) (w : Rat) (j : Nat),
        j < g.edges.length →
        (g.edges.getD j dummyEdge).efrom = f → (g.edges.getD j dummyEdge).eto = t →
        (∀ k, k < j → ¬((g.edges.getD k dummyEdge).efrom = f ∧
          (g.edges.getD k dummyEdge).eto = t)) →
        RoutingEngine.update_edge_by_nodes g f t w =
          { g with edges :=
              g.edges.set j { g.edges.getD j dummyEdge with weight := w } }) := by
  intro h
  have h1 := h g2 1 0 9 1 (by decide) (by decide) (by decide)
    (fun k hk => by
      interval_cases k
      decide)
  exact absurd h1 (by decide)

/-- C6 amended: `update_edge(from, to, w)` updates, by id, the first edge
whose id equals the id of the first endpoint-matching edge. Under the
additional hypothesis that edge ids are pairwise distinct (true of every
graph produced by `filter_largest_connected_component`, see C10) this is
exactly the claimed behaviour: only the first endpoint-matching edge changes. -/
theorem c6_update_edge_by_nodes_distinct_ids (g : Graph) (f t : Nat) (w : Rat)
    (hids : g.edges.Pairwise (fun a b => a.id ≠ b.id))
    (j : Nat) (hj : j < g.edges.length)
    (hf : (g.edges.getD j dummyEdge).efrom = f) (ht : (g.edges.getD j dummyEdge).eto = t)
    (hbefore : ∀ k, k < j → ¬((g.edges.getD k dummyEdge).efrom = f ∧
      (g.edges.getD k dummyEdge).eto = t)) :
    RoutingEngine.update_edge_by_nodes g f t w =
      { g with edges := g.edges.set j { g.edges.getD j dummyEdge with weight := w } } := by
  have hfind : g.edges.find? (fun e => e.efrom == f && e.eto == t) =
      some (g.edges.getD j dummyEdge) := by
    apply find?_eq_getD _ _ _ j hj
    · simp only [Bool.and_eq_true, beq_iff_eq]
      exact ⟨hf, ht⟩
    · intro k hk
      have := hbefore k hk
      simp only [Bool.and_eq_false_iff, beq_eq_false_iff_ne, ne_eq]
      tauto
  unfold RoutingEngine.update_edge_by_nodes
  rw [hfind]
  apply (c2_update_edge_weight_first_match g _ w).2 j hj rfl
  intro k hk
  have hk' : k < g.edges.length := Nat.lt_trans hk hj
  have hpair := List.pairwise_iff_getElem.mp hids k j hk' hj hk
  rwa [List.getD_eq_getElem g.edges dummyEdge hk', List.getD_eq_getElem g.edges dummyEdge hj]

/-- C6 witness: a two-edge graph with DISTINCT ids: updating by endpoints
`(1, 0)` rewrites exactly the directed edge `1 → 0`. -/
theorem c6_witness :
    RoutingEngine.update_edge_by_nodes
      ((((Graph.empty.add_node 0 0 0).add_node 1 0 1).add_edge 3 0 1 5).add_edge 4 1 0 5)
      1 0 9 =
    { (((Graph.empty.add_node 0 0 0).add_node 1 0 1).add_edge 3 0 1 5).add_edge 4 1 0 5 with
      edges :=
        ((((Graph.empty.add_node 0 0 0).add_node 1 0 1).add_edge 3 0 1 5).add_edge
          4 1 0 5).edges.set 1
          { ((((Graph.empty.add_node 0 0 0).add_node 1 0 1).add_edge 3 0 1 5).add_edge
              4 1 0 5).edges.getD 1 dummyEdge with weight := 9 } } := by
  apply c6_update_edge_by_nodes_distinct_ids _ 1 0 9
  · decide
  · decide
  · decide
  · decide
  · intro k hk
    interval_cases k
    decide

/-! ## Claim C9: add_node -/

/-- C9 counterexample: the claim states `add_node(id, lat, lon)` appends when
`id` equals the current node count and fails (leaving the graph unchanged)
otherwise. The source (part_009, lines 6-15) performs no check whatsoever:
`add_node 5` on the empty graph appends a node with id 5. -/
theorem c9_counterexample :
    ¬ (∀ (g : Graph) (id : Int) (lat lon : Rat),
        (id = (g.nodes.length : Int) →
          Graph.add_node g id lat lon = { g with nodes := g.nodes ++ [⟨id, lat, lon, []⟩] }) ∧
        (id ≠ (g.nodes.length : Int) → Graph.add_node g id lat lon = g)) := by
  intro h
  have h1 := (h Graph.empty 5 0 0).2 (by decide)
  exact absurd h1 (by decide)

/-- C9 amended: `add_node(id, lat, lon)` UNCONDITIONALLY appends a node built
from the given id and coordinates — there is no dense-indexing validation and
no failure path; the edge list is untouched. -/
theorem c9_add_node_always_appends (g : Graph) (id : Int) (lat lon : Rat) :
    (Graph.add_node g id lat lon).nodes = g.nodes ++ [⟨id, lat, lon, []⟩] ∧
    (Graph.add_node g id lat lon).edges = g.edges :=
  ⟨rfl, rfl⟩

/-! ## GraphBuilder.filter_largest_connected_component (graphbuilder.cpp, lines 134-210) -/

namespace GraphBuilder

/-- BFS inner loop (graphbuilder.cpp, lines 148-159). The C++ `while (!q.empty())`
loop is embedded with explicit fuel; `2 * N + 2` fuel is always sufficient
because every iteration either empties the queue or pops one entry, each node
is pushed at most once (it is marked visited when pushed), and the measure
`|unvisited| + |queue|` strictly decreases. -/
def bfs_loop (g : Graph) : Nat → List Nat → (Nat → Bool) → List Nat → (List Nat × (Nat → Bool))
  | 0, _, visited, comp => (comp, visited)
  | _ + 1, [], visited, comp => (comp, visited)
  | fuel + 1, u :: q, visited, comp =>
    let step := (Graph.neighbors g u).foldl
      (fun (acc : (Nat → Bool) × List Nat) nb =>
        if acc.1 nb.1 then acc else (updFn acc.1 nb.1 true, acc.2 ++ [nb.1]))
      (visited, q)
    bfs_loop g fuel step.2 step.1 (comp ++ [u])

/-- Component discovery (graphbuilder.cpp, lines 139-162): scan all node
indices, launching a BFS from every not-yet-visited one. -/
def find_components (g : Graph) : List (List Nat) :=
  ((List.range g.nodes.length).foldl
    (fun (acc : (Nat → Bool) × List (List Nat)) i =>
      if acc.1 i then acc
      else
        let r := bfs_loop g (2 * g.nodes.length + 2) [i] (updFn acc.1 i true) []
        (r.2, acc.2 ++ [r.1]))
    ((fun _ => false), [])).2

/-- Largest-component selection (graphbuilder.cpp, lines 164-177): strict
`>` comparison, so the first component of maximal size wins. When there is no
component (empty graph, C++ `main_idx == -1`) the empty list is returned, and
rebuilding from it yields the default-constructed empty graph, exactly as the
C++ early return does. -/
def largest_component (comps : List (List Nat)) : List Nat :=
  (comps.foldl (fun (acc : Nat × List Nat) c =>
      if c.length > acc.1 then (c.length, c) else acc) (0, [])).2

/-- Assignment `old_to_new[k] = v` on the `unordered_map` model: overwrite if
present, insert otherwise. -/
def tblInsert (tbl : List (Nat × Nat)) (k v : Nat) : List (Nat × Nat) :=
  if tbl.any (fun p => p.1 == k) then tbl.map (fun p => if p.1 == k then (k, v) else p)
  else tbl ++ [(k, v)]

/-- Read `old_to_new[k]`: `unordered_map<int,int>::operator[]`
default-initializes missing keys to 0. -/
def lookupD (tbl : List (Nat × Nat)) (k : Nat) : Nat :=
  match tbl.find? (fun p => p.1 == k) with
  | some p => p.2
  | none => 0

/-- Node-rebuild loop (graphbuilder.cpp, lines 180-192): for each old index in
the main component, record `old_to_new[old] = new_idx`, append the node, and
increment `new_idx`. Returns the finished table and graph. -/
def rebuild_nodes (orig : Graph) (mc : List Nat) : List (Nat × Nat) × Graph :=
  let r := mc.foldl
    (fun (acc : List (Nat × Nat) × Graph × Nat) old =>
      (tblInsert acc.1 old acc.2.2,
       (acc.2.1.add_node (Int.ofNat acc.2.2)
         (orig.nodes.getD old dummyNode).lat (orig.nodes.getD old dummyNode).lon,
       acc.2.2 + 1)))
    ([], (Graph.empty, 0))
  (r.1, r.2.1)

/-- Edge-rebuild loop (graphbuilder.cpp, lines 194-207): for each old index in
the main component and each of its outgoing `(to, weight)` pairs whose target
is also in the component, add an edge under the running counter `edge_ind`. -/
def rebuild_edges (orig : Graph) (mc : List Nat) (tbl : List (Nat × Nat)) (g0 : Graph) : Graph :=
  (mc.foldl
    (fun (acc : Graph × Nat) old =>
      (orig.neighbors old).foldl
        (fun (acc2 : Graph × Nat) nb =>
          if mc.contains nb.1 then
            (acc2.1.add_edge (Int.ofNat acc2.2) (lookupD tbl old) (lookupD tbl nb.1) nb.2,
             acc2.2 + 1)
          else acc2)
        acc)
    (g0, 0)).1

/-- `GraphBuilder::filter_largest_connected_component` (lines 134-210). -/
def filter_largest_connected_component (orig : Graph) : Graph :=
  let mc := largest_component (find_components orig)
  let r := rebuild_nodes orig mc
  rebuild_edges orig mc r.1 r.2

end GraphBuilder

/-! ## Claim C10: edge ids in the filtered graph -/

theorem updAt_length {α : Type} (l : List α) (i : Nat) (f : α → α) :
    (updAt l i f).length = l.length := by
  induction l generalizing i with
  | nil => rfl
  | cons x xs ih =>
    cases i with
    | zero => rfl
    | succ n => simpa [updAt] using ih n

theorem add_edge_nodes_length (g : Graph) (id : Int) (f t : Nat) (w : Rat) :
    (g.add_edge id f t w).nodes.length = g.nodes.length := by
  unfold Graph.add_edge
  split
  · exact updAt_length g.nodes f _
  · rfl

theorem add_edge_edges_of_valid (g : Graph) (id : Int) (f t : Nat) (w : Rat)
    (hf : f < g.nodes.length) (ht : t < g.nodes.length) :
    (g.add_edge id f t w).edges = g.edges ++ [⟨id, f, t, w⟩] := by
  unfold Graph.add_edge
  rw [if_pos ⟨hf, ht⟩]

theorem tblInsert_values {b : Nat} (tbl : List (Nat × Nat)) (k v : Nat)
    (htbl : ∀ p ∈ tbl, p.2 < b) (hv : v < b) :
    ∀ p ∈ GraphBuilder.tblInsert tbl k v, p.2 < b := by
  intro p hp
  unfold GraphBuilder.tblInsert at hp
  split at hp
  · rcases List.mem_map.mp hp with ⟨q, hq, hqe⟩
    by_cases hqk : q.1 == k
    · simp only [hqk, if_true] at hqe
      exact hqe ▸ hv
    · simp only [hqk, if_false] at hqe
      exact hqe ▸ htbl q hq
  · rcases List.mem_append.mp hp with hmem | hmem
    · exact htbl p hmem
    · simp only [List.mem_singleton] at hmem
      exact hmem ▸ hv

theorem lookupD_lt (tbl : List (Nat × Nat)) (L : Nat)
    (hvals : ∀ p ∈ tbl, p.2 < L) (h0 : 0 < L) (k : Nat) :
    GraphBuilder.lookupD tbl k < L := by
  unfold GraphBuilder.lookupD
  cases hfind : tbl.find? (fun p => p.1 == k) with
  | none => exact h0
  | some p => exact hvals p (List.mem_of_find?_eq_some hfind)

/-- State invariant of the node-rebuild fold: the counter equals the node
count, no edges are created, all table values are below the counter. -/
def NodeInv (st : List (Nat × Nat) × Graph × Nat) : Prop :=
  st.2.2 = st.2.1.nodes.length ∧ st.2.1.edges = [] ∧ ∀ p ∈ st.1, p.2 < st.2.2

theorem rebuild_nodes_fold_inv (orig : Graph) (mc : List Nat) :
    ∀ st : List (Nat × Nat) × Graph × Nat, NodeInv st →
      NodeInv (mc.foldl
        (fun (acc : List (Nat × Nat) × Graph × Nat) old =>
          (GraphBuilder.tblInsert acc.1 old acc.2.2,
           (acc.2.1.add_node (Int.ofNat acc.2.2)
             (orig.nodes.getD old dummyNode).lat (orig.nodes.getD old dummyNode).lon,
           acc.2.2 + 1)))
        st) ∧
      (mc.foldl
        (fun (acc : List (Nat × Nat) × Graph × Nat) old =>
          (GraphBuilder.tblInsert acc.1 old acc.2.2,
           (acc.2.1.add_node (Int.ofNat acc.2.2)
             (orig.nodes.getD old dummyNode).lat (orig.nodes.getD old dummyNode).lon,
           acc.2.2 + 1)))
        st).2.2 = st.2.2 + mc.length := by
  induction mc with
  | nil => exact fun st h => ⟨h, rfl⟩
  | cons x xs ih =>
    intro st h
    obtain ⟨hcnt, hedg, htbl⟩ := h
    have hstep : NodeInv
        (GraphBuilder.tblInsert st.1 x st.2.2,
         (st.2.1.add_node (Int.ofNat st.2.2)
           (orig.nodes.getD x dummyNode).lat (orig.nodes.getD x dummyNode).lon,
         st.2.2 + 1)) := by
      refine ⟨?_, ?_, ?_⟩
      · simp [Graph.add_node, hcnt]
      · simpa [Graph.add_node] using hedg
      · exact tblInsert_values st.1 x st.2.2
          (fun p hp => Nat.lt_succ_of_lt (htbl p hp)) (Nat.lt_succ_self _)
    rcases ih _ hstep with ⟨h1, h2⟩
    refine ⟨by simpa using h1, ?_⟩
    simp only [List.foldl_cons] at h2 ⊢
    rw [h2]
    simp only [List.length_cons]
    omega

/-- State invariant of the edge-rebuild fold: node count `L` is preserved, the
counter equals the current edge count, and every existing edge's id equals its
index. -/
def EdgeInv (L : Nat) (st : Graph × Nat) : Prop :=
  st.1.nodes.length = L ∧ st.2 = st.1.edges.length ∧
  ∀ i, i < st.1.edges.length → (st.1.edges.getD i dummyEdge).id = (i : Int)

theorem edgeInv_add (L : Nat) (st : Graph × Nat) (h : EdgeInv L st)
    (f t : Nat) (w : Rat) (hf : f < L) (ht : t < L) :
    EdgeInv L (st.1.add_edge (Int.ofNat st.2) f t w, st.2 + 1) := by
  obtain ⟨hL, hc, hids⟩ := h
  have hf' : f < st.1.nodes.length := hL ▸ hf
  have ht' : t < st.1.nodes.length := hL ▸ ht
  have hed := add_edge_edges_of_valid st.1 (Int.ofNat st.2) f t w hf' ht'
  refine ⟨by rw [add_edge_nodes_length]; exact hL, ?_, ?_⟩
  · rw [hed]
    simp [hc]
  · intro i hi
    rw [hed] at hi
    simp only [List.length_append, List.length_cons, List.length_nil] at hi
    rcases Nat.lt_succ_iff_lt_or_eq.mp (show i < st.1.edges.length + 1 by omega) with hlt | heq
    · rw [hed, List.getD_append _ _ _ _ hlt]
      exact hids i hlt
    · subst heq
      rw [hed, List.getD_append_right _ _ _ _ (Nat.le_refl _)]
      simp [hc]

theorem edge_fold_inner (L : Nat) (mc : List Nat) (tbl : List (Nat × Nat))
    (hlk : ∀ k, GraphBuilder.lookupD tbl k < L) (old : Nat) (nbs : List (Nat × Rat)) :
    ∀ st : Graph × Nat, EdgeInv L st →
      EdgeInv L (nbs.foldl
        (fun (acc2 : Graph × Nat) nb =>
          if mc.contains nb.1 then
            (acc2.1.add_edge (Int.ofNat acc2.2)
              (GraphBuilder.lookupD tbl old) (GraphBuilder.lookupD tbl nb.1) nb.2,
             acc2.2 + 1)
          else acc2)
        st) := by
  induction nbs with
  | nil => exact fun st h => h
  | cons x xs ih =>
    intro st h
    simp only [List.foldl_cons]
    by_cases hc : mc.contains x.1
    · rw [if_pos hc]
      exact ih _ (edgeInv_add L st h _ _ x.2 (hlk old) (hlk x.1))
    · rw [if_neg hc]
      exact ih _ h

theorem edge_fold_outer (orig : Graph) (L : Nat) (mc mits : List Nat)
    (tbl : List (Nat × Nat)) (hlk : ∀ k, GraphBuilder.lookupD tbl k < L) :
    ∀ st : Graph × Nat, EdgeInv L st →
      EdgeInv L (mits.foldl
        (fun (acc : Graph × Nat) old =>
          (orig.neighbors old).foldl
            (fun (acc2 : Graph × Nat) nb =>
              if mc.contains nb.1 then
                (acc2.1.add_edge (Int.ofNat acc2.2)
                  (GraphBuilder.lookupD tbl old) (GraphBuilder.lookupD tbl nb.1) nb.2,
                 acc2.2 + 1)
              else acc2)
            acc)
        st) := by
  induction mits with
  | nil => exact fun st h => h
  | cons x xs ih =>
    intro st h
    simp only [List.foldl_cons]
    exact ih _ (edge_fold_inner L mc tbl hlk x (orig.neighbors x) st h)

/-- C10: every edge of the graph returned by
`filter_largest_connected_component` has id equal to its index in the edge
vector; in particular all edge ids are pairwise distinct, so the two directed
edges of a bidirectional road no longer share an id after filtering. -/
theorem c10_filter_assigns_dense_edge_ids (orig : Graph) :
    (∀ i, i < (GraphBuilder.filter_largest_connected_component orig).edges.length →
      ((GraphBuilder.filter_largest_connected_component orig).edges.getD i dummyEdge).id
        = (i : Int)) ∧
    (GraphBuilder.filter_largest_connected_component orig).edges.Pairwise
      (fun a b => a.id ≠ b.id) := by
  have main : ∀ i, i < (GraphBuilder.filter_largest_connected_component orig).edges.length →
      ((GraphBuilder.filter_largest_connected_component orig).edges.getD i dummyEdge).id
        = (i : Int) := by
    unfold GraphBuilder.filter_largest_connected_component
    unfold GraphBuilder.rebuild_edges
    set mc := GraphBuilder.largest_component (GraphBuilder.find_components orig) with hmc
    rcases List.eq_nil_or_concat mc with hnil | hne
    · -- empty component: no nodes, hence no edges are ever added
      rw [hnil]
      intro i hi
      simp only [GraphBuilder.rebuild_nodes, hnil, List.foldl_nil] at hi ⊢
      exact absurd hi (by simp [Graph.empty])
    · -- nonempty component: the fold invariant applies
      have hL : 0 < mc.length := by
        rcases hne with ⟨l, a, hla⟩
        rw [hla]
        simp
      have hinv := rebuild_nodes_fold_inv orig mc ([], (Graph.empty, 0))
        ⟨rfl, rfl, by intro p hp; simp at hp⟩
      rcases hinv with ⟨⟨hcnt, hedg, htbl⟩, hfinal⟩
      set r := mc.foldl
        (fun (acc : List (Nat × Nat) × Graph × Nat) old =>
          (GraphBuilder.tblInsert acc.1 old acc.2.2,
           (acc.2.1.add_node (Int.ofNat acc.2.2)
             (orig.nodes.getD old dummyNode).lat (orig.nodes.getD old dummyNode).lon,
           acc.2.2 + 1)))
        ([], (Graph.empty, 0)) with hr
      have hcount : r.2.2 = mc.length := by simpa using hfinal
      have hnodes : r.2.1.nodes.length = mc.length := by rw [← hcnt, hcount]
      have hvals : ∀ p ∈ r.1, p.2 < mc.length := fun p hp => hcount ▸ htbl p hp
      have hlk : ∀ k, GraphBuilder.lookupD r.1 k < mc.length :=
        lookupD_lt r.1 mc.length hvals hL
      have hstart : EdgeInv mc.length (r.2.1, 0) := by
        refine ⟨hnodes, ?_, ?_⟩
        · simp [hedg]
        · intro i hi
          rw [hedg] at hi
          exact absurd hi (by simp)
      have hres := edge_fold_outer orig mc.length mc mc r.1 hlk (r.2.1, 0) hstart
      intro i hi
      simp only [GraphBuilder.rebuild_nodes, ← hr]
      exact hres.2.2 i (by
        simpa only [GraphBuilder.rebuild_nodes, ← hr] using hi)
  refine ⟨main, ?_⟩
  rw [List.pairwise_iff_getElem]
  intro i j hi hj hij
  have h1 := main i (by omega)
  have h2 := main j hj
  rw [List.getD_eq_getElem _ _ (by omega)] at h1
  rw [List.getD_eq_getElem _ _ hj] at h2
  rw [h1, h2]
  intro hcontra
  exact absurd (by exact_mod_cast hcontra) (Nat.ne_of_lt hij)

/-! ## A* search (astar.cpp)

Doubles that can be `+inf` (tentative costs `g`, the returned `total_cost`)
are modelled as `WithTop Rat`. The heuristic `AStar::heuristic` is the
haversine great-circle distance of the two nodes' coordinates, a
transcendental function; it is passed as an oracle parameter `hw`, and each
theorem quantifies over it or instantiates it. -/

/-- `struct AStarNode` (astar.cpp, lines 8-17). The priority queue orders by
`f_cost` alone. -/
structure AStarNode where
  index : Nat
  g_cost : WithTop Rat
  f_cost : WithTop Rat
  parent : Int
deriving DecidableEq, Repr

/-- Pop the minimum-`f_cost` element, modelling
`priority_queue<AStarNode, vector<AStarNode>, greater<AStarNode>>`. The C++
binary heap's tie order among equal keys is unspecified; the embedding takes
the leftmost minimal entry. The positive theorems below are tie-order
independent, and the concrete counterexample inputs have no ties. -/
def popMin : List AStarNode → Option (AStarNode × List AStarNode)
  | [] => none
  | x :: xs =>
    match popMin xs with
    | none => some (x, xs)
    | some (m, rest) =>
      if x.f_cost ≤ m.f_cost then some (x, xs) else some (m, x :: rest)

/-- Mutable state of `AStar::shortest_path`: the arrays `g`, `parent`,
`closed` (modelled as functions, written only at indices below the node
count) and the open priority queue. -/
structure AState where
  g : Nat → WithTop Rat
  parent : Nat → Int
  closed : Nat → Bool
  opens : List AStarNode

/-- Relax a single outgoing edge `(v, w)` of `u` (astar.cpp, lines 61-72):
skip closed targets, and on strict improvement update `g`/`parent` and push a
fresh queue entry with `f = tentative + h(neighbor, goal)`. -/
def relaxOne (graph : Graph) (hw : GNode → GNode → Rat) (goal u : Nat)
    (st : AState) (vw : Nat × Rat) : AState :=
  if st.closed vw.1 then st
  else
    let tentative := st.g u + (vw.2 : WithTop Rat)
    if tentative < st.g vw.1 then
      { g := updFn st.g vw.1 tentative,
        parent := updFn st.parent vw.1 (Int.ofNat u),
        closed := st.closed,
        opens := st.opens ++
          [⟨vw.1, tentative,
            tentative + ((hw (graph.nodes.getD vw.1 dummyNode)
              (graph.nodes.getD goal dummyNode) : Rat) : WithTop Rat),
            Int.ofNat u⟩] }
    else st

/-- Relax all outgoing edges of the freshly closed node `u`. -/
def relaxEdges (graph : Graph) (hw : GNode → GNode → Rat) (goal u : Nat)
    (st : AState) : AState :=
  (Graph.neighbors graph u).foldl (relaxOne graph hw goal u) st

/-- The `while (!open.empty())` loop of `AStar::shortest_path` (astar.cpp,
lines 52-74), embedded with explicit fuel. Every iteration either pops a
stale (already closed) entry, shrinking the queue, or closes one node while
pushing at most `|edges|` entries, so fuel
`(|nodes| + 1) * (|edges| + 1) + 1` (used by `shortest_path` below) always
exceeds the remaining work; the sufficiency proof is `loop_post` below. -/
def aloop (graph : Graph) (hw : GNode → GNode → Rat) (goal : Nat) :
    Nat → AState → AState
  | 0, st => st
  | fuel + 1, st =>
    match popMin st.opens with
    | none => st
    | some (cur, rest) =>
      if st.closed cur.index then
        aloop graph hw goal fuel { st with opens := rest }
      else
        let st2 : AState :=
          { st with opens := rest, closed := updFn st.closed cur.index true }
        if cur.index = goal then st2
        else aloop graph hw goal fuel (relaxEdges graph hw goal cur.index st2)

/-- Walk the parent pointers from the goal (astar.cpp, lines 85-89); fuel
`|nodes| + 1` bounds the walk (parent chains produced by the loop are
acyclic; no theorem below inspects the path). -/
def walkParents (parent : Nat → Int) : Nat → Int → List Nat → List Nat
  | 0, _, acc => acc
  | fuel + 1, curr, acc =>
    if curr < 0 then acc
    else walkParents parent fuel (parent curr.toNat) (acc ++ [curr.toNat])

/-- `struct AStarResult` (astar.h). -/
structure AStarResult where
  path : List Nat
  total_cost : WithTop Rat

/-- `AStar::shortest_path(graph, start_idx, goal_idx)` (astar.cpp, lines
37-94), parameterized by the heuristic oracle `hw`. -/
def shortest_path (hw : GNode → GNode → Rat) (graph : Graph) (start goal : Nat) :
    AStarResult :=
  let init : AState :=
    { g := updFn (fun _ => ⊤) start (some 0),
      parent := fun _ => -1,
      closed := fun _ => false,
      opens := [⟨start, some 0,
        ((hw (graph.nodes.getD start dummyNode) (graph.nodes.getD goal dummyNode) : Rat) :
          WithTop Rat), -1⟩] }
  let fin := aloop graph hw goal
    ((graph.nodes.length + 1) * (graph.edges.length + 1) + 1) init
  match fin.g goal with
  | ⊤ => ⟨[], ⊤⟩
  | some c =>
    ⟨(walkParents fin.parent (graph.nodes.length + 1) (Int.ofNat goal) []).reverse, some c⟩

/-- Cost of a directed path through the adjacency structure: `PathCost g u v c`
means there is a path from node `u` to node `v` whose edge weights sum to `c`. -/
inductive PathCost (g : Graph) : Nat → Nat → Rat → Prop
  | nil (v : Nat) (h : v < g.nodes.length) : PathCost g v v 0
  | cons (u v t : Nat) (w c : Rat) (hu : u < g.nodes.length)
      (hmem : (v, w) ∈ Graph.neighbors g u) (rest : PathCost g v t c) :
      PathCost g u t (w + c)

/-- Reachability: some path exists. -/
def Reach (g : Graph) (u v : Nat) : Prop := ∃ c, PathCost g u v c

/-- The zero heuristic: running the A* source with `h = 0` is plain Dijkstra. -/
def zeroH : GNode → GNode → Rat := fun _ _ => 0

/-! ## RoutingEngine: nearest node and route (part_005, first variant) -/

/-- One iteration of the `find_nearest_node` scan over node index `i`
(part_005, lines 84-90): strict `<` against the best distance so far. -/
def fnnStep (hv : Rat × Rat → Rat × Rat → Rat) (g : Graph) (lat lon : Rat)
    (acc : Option Rat × Int) (i : Nat) : Option Rat × Int :=
  let n := g.nodes.getD i dummyNode
  let d := hv (lat, lon) (n.lat, n.lon)
  match acc.1 with
  | none => (some d, (i : Int))
  | some best => if d < best then (some d, (i : Int)) else acc

/-- `RoutingEngine::find_nearest_node` (part_005, lines 79-92): linear scan by
haversine distance, `-1` for the empty graph. The haversine (transcendental)
is the coordinate oracle `hv`; the `DBL_MAX` sentinel is modelled as an
`Option` that is `none` until the first node is seen (every actual haversine
value is below `DBL_MAX`, so the first comparison always succeeds, as the
Option does). -/
def find_nearest_node (hv : Rat × Rat → Rat × Rat → Rat) (g : Graph) (lat lon : Rat) : Int :=
  ((List.range g.nodes.length).foldl (fnnStep hv g lat lon) (none, -1)).2

/-- `AStar::heuristic` (astar.cpp, lines 19-32) is the haversine of the node
coordinates — the same formula as part_005's file-static `haversine`; both
are represented by the single coordinate oracle `hv`. -/
def nodeH (hv : Rat × Rat → Rat × Rat → Rat) : GNode → GNode → Rat :=
  fun a b => hv (a.lat, a.lon) (b.lat, b.lon)

/-- `RoutingEngine::route` (part_005, lines 155-167). -/
def route (hv : Rat × Rat → Rat × Rat → Rat) (g : Graph) (lat1 lon1 lat2 lon2 : Rat) :
    WithTop Rat :=
  let s := find_nearest_node hv g lat1 lon1
  let t := find_nearest_node hv g lat2 lon2
  if s < 0 ∨ t < 0 then some (-1)
  else (shortest_path (nodeH hv) g s.toNat t.toNat).total_cost

/-! ## popMin and PathCost lemmas -/

theorem popMin_eq_none (l : List AStarNode) : popMin l = none ↔ l = [] := by
  cases l with
  | nil => simp [popMin]
  | cons x xs =>
    simp only [popMin]
    constructor
    · intro h
      cases hxs : popMin xs with
      | none => simp [hxs] at h
      | some p =>
        rcases p with ⟨m, rest⟩
        rw [hxs] at h
        by_cases hle : x.f_cost ≤ m.f_cost <;> simp [hle] at h
    · intro h
      exact absurd h (by simp)

theorem popMin_perm (l : List AStarNode) (e : AStarNode) (rest : List AStarNode)
    (h : popMin l = some (e, rest)) : l.Perm (e :: rest) := by
  induction l generalizing e rest with
  | nil => simp [popMin] at h
  | cons x xs ih =>
    simp only [popMin] at h
    cases hxs : popMin xs with
    | none =>
      simp only [hxs, Option.some.injEq, Prod.mk.injEq] at h
      rw [← h.1, ← h.2]
    | some p =>
      rcases p with ⟨m, r⟩
      simp only [hxs] at h
      by_cases hle : x.f_cost ≤ m.f_cost
      · rw [if_pos hle] at h
        simp only [Option.some.injEq, Prod.mk.injEq] at h
        rw [← h.1, ← h.2]
      · rw [if_neg hle] at h
        simp only [Option.some.injEq, Prod.mk.injEq] at h
        rw [← h.1, ← h.2]
        exact ((ih m r hxs).cons x).trans (List.Perm.swap m x r)

theorem popMin_min (l : List AStarNode) (e : AStarNode) (rest : List AStarNode)
    (h : popMin l = some (e, rest)) : ∀ y ∈ l, e.f_cost ≤ y.f_cost := by
  induction l generalizing e rest with
  | nil => simp [popMin] at h
  | cons x xs ih =>
    simp only [popMin] at h
    cases hxs : popMin xs with
    | none =>
      simp only [hxs, Option.some.injEq, Prod.mk.injEq] at h
      have hxs' : xs = [] := (popMin_eq_none xs).mp hxs
      intro y hy
      rw [hxs'] at hy
      simp only [List.mem_singleton] at hy
      rw [← h.1, hy]
    | some p =>
      rcases p with ⟨m, r⟩
      simp only [hxs] at h
      by_cases hle : x.f_cost ≤ m.f_cost
      · rw [if_pos hle] at h
        simp only [Option.some.injEq, Prod.mk.injEq] at h
        intro y hy
        rcases List.mem_cons.mp hy with hy | hy
        · rw [← h.1, hy]
        · exact h.1 ▸ le_trans hle (ih m r hxs y hy)
      · rw [if_neg hle] at h
        simp only [Option.some.injEq, Prod.mk.injEq] at h
        intro y hy
        rcases List.mem_cons.mp hy with hy | hy
        · rw [← h.1, hy]
          exact le_of_not_le hle
        · exact h.1 ▸ ih m r hxs y hy

theorem PathCost.src_lt {g : Graph} {u v : Nat} {c : Rat} (h : PathCost g u v c) :
    u < g.nodes.length := by
  cases h with
  | nil _ h => exact h
  | cons _ _ _ _ _ hu _ _ => exact hu

theorem PathCost.tgt_lt {g : Graph} {u v : Nat} {c : Rat} (h : PathCost g u v c) :
    v < g.nodes.length := by
  induction h with
  | nil _ h => exact h
  | cons _ _ _ _ _ _ _ _ ih => exact ih

theorem PathCost.cast {g : Graph} {u v : Nat} {c c' : Rat} (h : PathCost g u v c)
    (e : c = c') : PathCost g u v c' := e ▸ h

theorem PathCost.append_edge {g : Graph} {s u : Nat} {c : Rat} (h : PathCost g s u c)
    {v : Nat} {w : Rat} (hmem : (v, w) ∈ Graph.neighbors g u) (hv : v < g.nodes.length) :
    PathCost g s v (c + w) := by
  induction h with
  | nil x hx => exact (PathCost.cons x v v w 0 hx hmem (PathCost.nil v hv)).cast (by ring)
  | cons a b t w' c' ha hm rest ih =>
    exact (PathCost.cons a b v w' (c' + w) ha hm (ih hmem)).cast (by ring)

theorem PathCost.cost_nonneg {g : Graph} {s t : Nat} {c : Rat}
    (hnn : ∀ u, u < g.nodes.length → ∀ p ∈ Graph.neighbors g u, 0 ≤ p.2)
    (h : PathCost g s t c) : 0 ≤ c := by
  induction h with
  | nil _ _ => exact le_refl 0
  | cons u v t w c hu hmem rest ih =>
    exact add_nonneg (hnn u hu (v, w) hmem) ih

/-! ## Unfolding lemmas for relaxOne and aloop -/

theorem relaxOne_closed (graph : Graph) (hw : GNode → GNode → Rat) (goal u : Nat)
    (st : AState) (vw : Nat × Rat) (h : st.closed vw.1 = true) :
    relaxOne graph hw goal u st vw = st := by
  unfold relaxOne
  rw [if_pos h]

theorem relaxOne_improve (graph : Graph) (hw : GNode → GNode → Rat) (goal u : Nat)
    (st : AState) (vw : Nat × Rat) (h : st.closed vw.1 = false)
    (himp : st.g u + (vw.2 : WithTop Rat) < st.g vw.1) :
    relaxOne graph hw goal u st vw =
      { g := updFn st.g vw.1 (st.g u + (vw.2 : WithTop Rat)),
        parent := updFn st.parent vw.1 (Int.ofNat u),
        closed := st.closed,
        opens := st.opens ++
          [⟨vw.1, st.g u + (vw.2 : WithTop Rat),
            st.g u + (vw.2 : WithTop Rat) +
              ((hw (graph.nodes.getD vw.1 dummyNode) (graph.nodes.getD goal dummyNode) : Rat) :
                WithTop Rat),
            Int.ofNat u⟩] } := by
  unfold relaxOne
  rw [if_neg (by simp [h])]
  dsimp only
  rw [if_pos himp]

theorem relaxOne_keep (graph : Graph) (hw : GNode → GNode → Rat) (goal u : Nat)
    (st : AState) (vw : Nat × Rat) (h : st.closed vw.1 = false)
    (himp : ¬ st.g u + (vw.2 : WithTop Rat) < st.g vw.1) :
    relaxOne graph hw goal u st vw = st := by
  unfold relaxOne
  rw [if_neg (by simp [h])]
  dsimp only
  rw [if_neg himp]

theorem aloop_zero (graph : Graph) (hw : GNode → GNode → Rat) (goal : Nat) (st : AState) :
    aloop graph hw goal 0 st = st := rfl

theorem aloop_none (graph : Graph) (hw : GNode → GNode → Rat) (goal fuel : Nat)
    (st : AState) (h : popMin st.opens = none) :
    aloop graph hw goal (fuel + 1) st = st := by
  unfold aloop
  rw [h]

theorem aloop_skip (graph : Graph) (hw : GNode → GNode → Rat) (goal fuel : Nat)
    (st : AState) (cur : AStarNode) (rest : List AStarNode)
    (h : popMin st.opens = some (cur, rest)) (hcl : st.closed cur.index = true) :
    aloop graph hw goal (fuel + 1) st =
      aloop graph hw goal fuel { st with opens := rest } := by
  conv_lhs => rw [aloop.eq_def]
  dsimp only
  rw [h]
  dsimp only
  rw [if_pos hcl]

theorem aloop_break (graph : Graph) (hw : GNode → GNode → Rat) (goal fuel : Nat)
    (st : AState) (cur : AStarNode) (rest : List AStarNode)
    (h : popMin st.opens = some (cur, rest)) (hcl : st.closed cur.index = false)
    (hg : cur.index = goal) :
    aloop graph hw goal (fuel + 1) st =
      { st with opens := rest, closed := updFn st.closed cur.index true } := by
  unfold aloop
  rw [h]
  dsimp only
  rw [if_neg (by simp [hcl]), if_pos hg]

theorem aloop_step (graph : Graph) (hw : GNode → GNode → Rat) (goal fuel : Nat)
    (st : AState) (cur : AStarNode) (rest : List AStarNode)
    (h : popMin st.opens = some (cur, rest)) (hcl : st.closed cur.index = false)
    (hg : cur.index ≠ goal) :
    aloop graph hw goal (fuel + 1) st =
      aloop graph hw goal fuel (relaxEdges graph hw goal cur.index
        { st with opens := rest, closed := updFn st.closed cur.index true }) := by
  conv_lhs => rw [aloop.eq_def]
  dsimp only
  rw [h]
  dsimp only
  rw [if_neg (by simp [hcl]), if_neg hg]

/-! ## Realizability invariant: every finite `g` value is an actual path cost.
This holds for every heuristic oracle and yields the `+inf` result on
unreachable goals (claim C5). -/

/-- Every finite entry of the `g` array is realized by a path from `start`. -/
def Realizes (graph : Graph) (start : Nat) (st : AState) : Prop :=
  ∀ v (c : Rat), st.g v = some c → PathCost graph start v c

theorem relaxOne_realizes (graph : Graph) (hw : GNode → GNode → Rat) (goal u start : Nat)
    (htg : ∀ x, x < graph.nodes.length → ∀ p ∈ Graph.neighbors graph x,
      p.1 < graph.nodes.length)
    (st : AState) (vw : Nat × Rat) (hmem : vw ∈ Graph.neighbors graph u)
    (hre : Realizes graph start st) :
    Realizes graph start (relaxOne graph hw goal u st vw) := by
  cases hcl : st.closed vw.1 with
  | true => rw [relaxOne_closed graph hw goal u st vw hcl]; exact hre
  | false =>
    by_cases himp : st.g u + (vw.2 : WithTop Rat) < st.g vw.1
    · rw [relaxOne_improve graph hw goal u st vw hcl himp]
      intro v c hc
      simp only [updFn] at hc
      split at hc
      · cases hgu : st.g u with
        | top =>
          rw [hgu] at hc
          simp [top_add] at hc
        | coe cu =>
          rw [hgu] at hc
          have h2 : ((cu + vw.2 : Rat) : WithTop Rat) = (c : WithTop Rat) := by
            rw [WithTop.coe_add]
            exact hc
          have hcc : cu + vw.2 = c := WithTop.coe_injective h2
          have hpu : PathCost graph start u cu := hre u cu hgu
          rename_i hveq
          subst hveq
          exact (hpu.append_edge hmem (htg u hpu.tgt_lt vw hmem)).cast hcc
      · exact hre v c hc
    · rw [relaxOne_keep graph hw goal u st vw hcl himp]
      exact hre

theorem relaxFold_realizes (graph : Graph) (hw : GNode → GNode → Rat) (goal u start : Nat)
    (htg : ∀ x, x < graph.nodes.length → ∀ p ∈ Graph.neighbors graph x,
      p.1 < graph.nodes.length) :
    ∀ (l : List (Nat × Rat)), (∀ p ∈ l, p ∈ Graph.neighbors graph u) →
      ∀ st : AState, Realizes graph start st →
        Realizes graph start (l.foldl (relaxOne graph hw goal u) st) := by
  intro l
  induction l with
  | nil => intro _ st h; exact h
  | cons x xs ih =>
    intro hl st h
    simp only [List.foldl_cons]
    exact ih (fun p hp => hl p (List.mem_cons_of_mem x hp)) _
      (relaxOne_realizes graph hw goal u start htg st x (hl x (List.mem_cons_self x xs)) h)

theorem aloop_realizes (graph : Graph) (hw : GNode → GNode → Rat) (goal start : Nat)
    (htg : ∀ x, x < graph.nodes.length → ∀ p ∈ Graph.neighbors graph x,
      p.1 < graph.nodes.length) :
    ∀ (fuel : Nat) (st : AState), Realizes graph start st →
      Realizes graph start (aloop graph hw goal fuel st) := by
  intro fuel
  induction fuel with
  | zero => intro st h; exact h
  | succ n ih =>
    intro st h
    cases hpop : popMin st.opens with
    | none => rw [aloop_none graph hw goal n st hpop]; exact h
    | some p =>
      rcases p with ⟨cur, rest⟩
      cases hcl : st.closed cur.index with
      | true =>
        rw [aloop_skip graph hw goal n st cur rest hpop hcl]
        exact ih _ h
      | false =>
        by_cases hgoal : cur.index = goal
        · rw [aloop_break graph hw goal n st cur rest hpop hcl hgoal]
          exact h
        · rw [aloop_step graph hw goal n st cur rest hpop hcl hgoal]
          exact ih _ (relaxFold_realizes graph hw goal cur.index start htg _
            (fun p hp => hp) _ h)

theorem shortest_path_unreachable (hw : GNode → GNode → Rat) (g : Graph)
    (start goal : Nat) (hs : start < g.nodes.length)
    (htg : ∀ x, x < g.nodes.length → ∀ p ∈ Graph.neighbors g x, p.1 < g.nodes.length)
    (hnr : ¬ Reach g start goal) :
    (shortest_path hw g start goal).total_cost = ⊤ := by
  have hinit : Realizes g start
      { g := updFn (fun _ => ⊤) start (some 0),
        parent := fun _ => -1,
        closed := fun _ => false,
        opens := [⟨start, some 0,
          ((hw (g.nodes.getD start dummyNode) (g.nodes.getD goal dummyNode) : Rat) :
            WithTop Rat), -1⟩] } := by
    intro v c hc
    simp only [updFn] at hc
    split at hc
    · rename_i hveq
      rw [hveq]
      exact (PathCost.nil start hs).cast (Option.some.inj hc)
    · exact absurd hc (by simp)
  have hfin := aloop_realizes g hw goal start htg
    ((g.nodes.length + 1) * (g.edges.length + 1) + 1) _ hinit
  have htop : (aloop g hw goal ((g.nodes.length + 1) * (g.edges.length + 1) + 1)
      { g := updFn (fun _ => ⊤) start (some 0),
        parent := fun _ => -1,
        closed := fun _ => false,
        opens := [⟨start, some 0,
          ((hw (g.nodes.getD start dummyNode) (g.nodes.getD goal dummyNode) : Rat) :
            WithTop Rat), -1⟩] }).g goal = ⊤ := by
    cases hcase : (aloop g hw goal ((g.nodes.length + 1) * (g.edges.length + 1) + 1)
        { g := updFn (fun _ => ⊤) start (some 0),
          parent := fun _ => -1,
          closed := fun _ => false,
          opens := [⟨start, some 0,
            ((hw (g.nodes.getD start dummyNode) (g.nodes.getD goal dummyNode) : Rat) :
              WithTop Rat), -1⟩] }).g goal with
    | top => rfl
    | coe c => exact absurd ⟨c, hfin goal c hcase⟩ hnr
  unfold shortest_path
  simp only [htop]

/-! ## Claim C5: route boundary behaviours -/

theorem find_nearest_node_empty (hv : Rat × Rat → Rat × Rat → Rat) (g : Graph)
    (lat lon : Rat) (h : g.nodes = []) : find_nearest_node hv g lat lon = -1 := by
  unfold find_nearest_node
  rw [h]
  rfl

theorem fnnStep_isSome (hv : Rat × Rat → Rat × Rat → Rat) (g : Graph) (lat lon : Rat)
    (acc : Option Rat × Int) (i : Nat) :
    (fnnStep hv g lat lon acc i).1.isSome = true := by
  unfold fnnStep
  cases hc : acc.1 with
  | none => rfl
  | some best =>
    dsimp only
    split
    · rfl
    · simp [hc]

theorem fnnStep_inv (hv : Rat × Rat → Rat × Rat → Rat) (g : Graph) (lat lon : Rat)
    (N : Nat) (acc : Option Rat × Int) (i : Nat) (hi : i < N)
    (hacc : acc.1.isSome = true → 0 ≤ acc.2 ∧ acc.2.toNat < N) :
    0 ≤ (fnnStep hv g lat lon acc i).2 ∧ (fnnStep hv g lat lon acc i).2.toNat < N := by
  unfold fnnStep
  cases hc : acc.1 with
  | none =>
    refine ⟨by positivity, ?_⟩
    simpa using hi
  | some best =>
    dsimp only
    split
    · refine ⟨by positivity, ?_⟩
      simpa using hi
    · exact hacc (by simp [hc])

theorem fnn_fold_isSome (hv : Rat × Rat → Rat × Rat → Rat) (g : Graph) (lat lon : Rat) :
    ∀ (l : List Nat) (acc : Option Rat × Int),
      (l ≠ [] ∨ acc.1.isSome = true) →
      (l.foldl (fnnStep hv g lat lon) acc).1.isSome = true := by
  intro l
  induction l with
  | nil =>
    intro acc h
    rcases h with h | h
    · exact absurd rfl h
    · exact h
  | cons x xs ih =>
    intro acc _
    simp only [List.foldl_cons]
    exact ih _ (Or.inr (fnnStep_isSome hv g lat lon acc x))

theorem fnn_fold_inv (hv : Rat × Rat → Rat × Rat → Rat) (g : Graph) (lat lon : Rat)
    (N : Nat) :
    ∀ (l : List Nat), (∀ i ∈ l, i < N) →
      ∀ acc : Option Rat × Int,
        (acc.1.isSome = true → 0 ≤ acc.2 ∧ acc.2.toNat < N) →
        ((l.foldl (fnnStep hv g lat lon) acc).1.isSome = true →
          0 ≤ (l.foldl (fnnStep hv g lat lon) acc).2 ∧
          (l.foldl (fnnStep hv g lat lon) acc).2.toNat < N) := by
  intro l
  induction l with
  | nil => intro _ acc hacc; exact hacc
  | cons x xs ih =>
    intro hl acc hacc
    simp only [List.foldl_cons]
    exact ih (fun i hi => hl i (List.mem_cons_of_mem x hi)) _
      (fun _ => fnnStep_inv hv g lat lon N acc x (hl x (List.mem_cons_self x xs)) hacc)

theorem find_nearest_node_nonneg (hv : Rat × Rat → Rat × Rat → Rat) (g : Graph)
    (lat lon : Rat) (hne : g.nodes ≠ []) :
    0 ≤ find_nearest_node hv g lat lon ∧
    (find_nearest_node hv g lat lon).toNat < g.nodes.length := by
  have hN : g.nodes.length ≠ 0 := fun h => hne (List.length_eq_zero.mp h)
  have hrange : (List.range g.nodes.length) ≠ [] := by
    simpa [List.range_eq_nil] using hN
  have hsome := fnn_fold_isSome hv g lat lon (List.range g.nodes.length) (none, -1)
    (Or.inl hrange)
  exact fnn_fold_inv hv g lat lon g.nodes.length (List.range g.nodes.length)
    (fun i hi => List.mem_range.mp hi) (none, -1) (by simp) hsome

/-- C5: `route` returns `-1` whenever the graph has no nodes, and returns
`+inf` whenever both nearest nodes exist (graph nonempty) but the goal node
is unreachable from the start node. The hypothesis `htg` states that every
adjacency target is a valid node index — the Graph invariant of spec §3,
enforced by `add_edge`'s asserts. -/
theorem c5_route_empty_neg_one_disconnected_inf (hv : Rat × Rat → Rat × Rat → Rat)
    (g : Graph) (lat1 lon1 lat2 lon2 : Rat)
    (htg : ∀ x, x < g.nodes.length → ∀ p ∈ Graph.neighbors g x, p.1 < g.nodes.length) :
    (g.nodes = [] → route hv g lat1 lon1 lat2 lon2 = some (-1)) ∧
    (g.nodes ≠ [] →
      ¬ Reach g (find_nearest_node hv g lat1 lon1).toNat
          (find_nearest_node hv g lat2 lon2).toNat →
      route hv g lat1 lon1 lat2 lon2 = ⊤) := by
  constructor
  · intro h
    simp only [route]
    rw [find_nearest_node_empty hv g lat1 lon1 h, find_nearest_node_empty hv g lat2 lon2 h]
    norm_num
  · intro hne hnr
    obtain ⟨hs1, hs2⟩ := find_nearest_node_nonneg hv g lat1 lon1 hne
    obtain ⟨ht1, ht2⟩ := find_nearest_node_nonneg hv g lat2 lon2 hne
    simp only [route]
    rw [if_neg (by push_neg; constructor <;> omega)]
    exact shortest_path_unreachable (nodeH hv) g _ _ hs2 htg hnr

/-- Two isolated nodes used by the C5 witness: node 1 is not reachable from
node 0. -/
def gw5 : Graph := (Graph.empty.add_node 0 0 0).add_node 1 5 5

/-- Concrete stand-in for the haversine oracle in witnesses: the L1 distance
of the coordinate pairs. -/
def hvW : Rat × Rat → Rat × Rat → Rat := fun a b => |a.1 - b.1| + |a.2 - b.2|

theorem gw5_unreachable : ¬ Reach gw5 0 1 := by
  rintro ⟨c, hpc⟩
  cases hpc with
  | cons u v t w c hu hmem rest =>
    exact absurd hmem (by rw [show Graph.neighbors gw5 0 = [] from rfl]; simp)

/-- C5 witness: on the two-node edgeless graph the route between the two
nodes is `+inf`, and on the empty graph the route is `-1`. -/
theorem c5_witness :
    route hvW gw5 0 0 5 5 = ⊤ ∧ route hvW Graph.empty 0 0 5 5 = some (-1) := by
  constructor
  · apply (c5_route_empty_neg_one_disconnected_inf hvW gw5 0 0 5 5 (by decide)).2
    · decide
    · have hs : find_nearest_node hvW gw5 0 0 = 0 := by decide
      have ht : find_nearest_node hvW gw5 5 5 = 1 := by decide
      rw [hs, ht]
      exact gw5_unreachable
  · exact (c5_route_empty_neg_one_disconnected_inf hvW Graph.empty 0 0 5 5 (by decide)).1 rfl

/-! ## Claim C4: Dijkstra-style invariants for the zero-heuristic run.

The development follows the classic proof: settled nodes carry minimal
distances, every finite `g` value is realized, every unclosed finite node is
represented on the open queue at its current `g` value, and every edge out of
a closed node has been relaxed. -/

/-- `x` is the minimal path cost from `s` to `v`. -/
def IsMinCost (G : Graph) (s v : Nat) (x : WithTop Rat) : Prop :=
  ∃ c : Rat, x = some c ∧ PathCost G s v c ∧ ∀ c', PathCost G s v c' → c ≤ c'

/-- Number of node indices not yet closed. -/
def unclosedCount (G : Graph) (st : AState) : Nat :=
  ((List.range G.nodes.length).filter (fun v => st.closed v = false)).length

/-- Termination measure of the A* loop. -/
def work (G : Graph) (st : AState) : Nat :=
  unclosedCount G st * (G.edges.length + 1) + st.opens.length

/-- Core loop invariant for the zero-heuristic (Dijkstra) run. -/
structure DB (G : Graph) (start : Nat) (st : AState) : Prop where
  entries : ∀ e ∈ st.opens, e.index < G.nodes.length ∧ e.f_cost = e.g_cost ∧
    (∃ c : Rat, e.g_cost = some c ∧ PathCost G start e.index c) ∧ st.g e.index ≤ e.g_cost
  realize : ∀ v (c : Rat), st.g v = some c → PathCost G start v c
  settled : ∀ v, st.closed v = true → IsMinCost G start v (st.g v)
  frontier : ∀ v (c : Rat), st.closed v = false → st.g v = some c →
    ∃ e ∈ st.opens, e.index = v ∧ e.g_cost = some c
  closedN : ∀ v, st.closed v = true → v < G.nodes.length
  startle : st.g start ≤ some 0

/-- Every edge out of every closed node has been relaxed. -/
def RelaxedAll (G : Graph) (st : AState) : Prop :=
  ∀ u, st.closed u = true → ∀ p ∈ Graph.neighbors G u,
    st.closed p.1 = true ∨ st.g p.1 ≤ st.g u + (p.2 : WithTop Rat)

/-- Partially relaxed: as `RelaxedAll`, except that pairs of the freshly
closed node `u` still sitting in `todo` are exempt. -/
def PartialRel (G : Graph) (u : Nat) (todo : List (Nat × Rat)) (st : AState) : Prop :=
  ∀ x, st.closed x = true → ∀ p ∈ Graph.neighbors G x,
    (x = u ∧ p ∈ todo) ∨ st.closed p.1 = true ∨ st.g p.1 ≤ st.g x + (p.2 : WithTop Rat)

/-- Any path from a settled minimal node to an unclosed target passes an open
entry whose cost is below the settled cost plus the path cost. -/
theorem db_frontier_path (G : Graph) (start : Nat) (st : AState)
    (hnn : ∀ x, x < G.nodes.length → ∀ p ∈ Graph.neighbors G x, 0 ≤ p.2)
    (htg : ∀ x, x < G.nodes.length → ∀ p ∈ Graph.neighbors G x, p.1 < G.nodes.length)
    (hdb : DB G start st) (hrel : RelaxedAll G st) :
    ∀ {u tgt : Nat} {cpath : Rat}, PathCost G u tgt cpath →
      ∀ cu : Rat, st.closed u = true → st.closed tgt = false → st.g u = some cu →
        (∀ c', PathCost G start u c' → cu ≤ c') →
        ∃ e ∈ st.opens, ∃ ce : Rat, e.g_cost = some ce ∧ ce ≤ cu + cpath := by
  intro u tgt cpath hp
  induction hp with
  | nil v _ =>
    intro cu hclu hcltgt _ _
    rw [hclu] at hcltgt
    exact absurd hcltgt (by simp)
  | cons a v t w c' ha hmem rest ih =>
    intro cu hclu hcltgt hgu _
    have hpu : PathCost G start a cu := hdb.realize a cu hgu
    have hpv : PathCost G start v (cu + w) :=
      hpu.append_edge hmem (htg a ha (v, w) hmem)
    cases hclv : st.closed v with
    | true =>
      obtain ⟨cv, hgv, hpcv, hmincv⟩ := hdb.settled v hclv
      have hcv : cv ≤ cu + w := hmincv _ hpv
      obtain ⟨e, he, ce, hce, hle⟩ := ih cv hclv hcltgt hgv hmincv
      refine ⟨e, he, ce, hce, ?_⟩
      calc ce ≤ cv + c' := hle
        _ ≤ (cu + w) + c' := by linarith
        _ = cu + (w + c') := by ring
    | false =>
      have hrelv := hrel a hclu (v, w) hmem
      rw [hclv] at hrelv
      have hgle : st.g v ≤ st.g a + ((w : Rat) : WithTop Rat) := by
        rcases hrelv with h | h
        · exact absurd h (by simp)
        · exact h
      rw [hgu] at hgle
      have hgle2 : st.g v ≤ ((cu + w : Rat) : WithTop Rat) := by
        rwa [WithTop.coe_add]
      obtain ⟨cv, hgv, hcvle⟩ := WithTop.le_coe_iff.mp hgle2
      obtain ⟨e, he, hei, hec⟩ := hdb.frontier v cv hclv hgv
      refine ⟨e, he, cv, hec, ?_⟩
      have hcnn : 0 ≤ c' := rest.cost_nonneg hnn
      linarith

/-- Any path from the start to an unclosed target passes an open entry whose
cost is below the path cost. -/
theorem db_cover (G : Graph) (start : Nat) (st : AState)
    (hnn : ∀ x, x < G.nodes.length → ∀ p ∈ Graph.neighbors G x, 0 ≤ p.2)
    (htg : ∀ x, x < G.nodes.length → ∀ p ∈ Graph.neighbors G x, p.1 < G.nodes.length)
    (hdb : DB G start st) (hrel : RelaxedAll G st)
    {tgt : Nat} {c : Rat} (hp : PathCost G start tgt c) (hcl : st.closed tgt = false) :
    ∃ e ∈ st.opens, ∃ ce : Rat, e.g_cost = some ce ∧ ce ≤ c := by
  cases hclstart : st.closed start with
  | false =>
    obtain ⟨c0, hg0, hc0⟩ := WithTop.le_coe_iff.mp hdb.startle
    obtain ⟨e, he, hei, hec⟩ := hdb.frontier start c0 hclstart hg0
    exact ⟨e, he, c0, hec, le_trans hc0 (hp.cost_nonneg hnn)⟩
  | true =>
    obtain ⟨cs, hgs, hpcs, hmins⟩ := hdb.settled start hclstart
    have hcs0 : cs ≤ 0 := hmins 0 (PathCost.nil start (hdb.closedN start hclstart))
    obtain ⟨e, he, ce, hce, hle⟩ :=
      db_frontier_path G start st hnn htg hdb hrel hp cs hclstart hcl hgs hmins
    exact ⟨e, he, ce, hce, by linarith⟩

/-- Popping an unclosed minimal entry settles it: its current `g` value is
the minimal path cost. -/
theorem db_popclose (G : Graph) (start : Nat) (st : AState)
    (hnn : ∀ x, x < G.nodes.length → ∀ p ∈ Graph.neighbors G x, 0 ≤ p.2)
    (htg : ∀ x, x < G.nodes.length → ∀ p ∈ Graph.neighbors G x, p.1 < G.nodes.length)
    (hdb : DB G start st) (hrel : RelaxedAll G st)
    (cur : AStarNode) (rest : List AStarNode)
    (hpop : popMin st.opens = some (cur, rest)) (hcl : st.closed cur.index = false) :
    IsMinCost G start cur.index (st.g cur.index) := by
  have hmem : cur ∈ st.opens :=
    (popMin_perm st.opens cur rest hpop).mem_iff.mpr (List.mem_cons_self cur rest)
  obtain ⟨hidx, hfg, ⟨ccur, hgc, hpc⟩, hle⟩ := hdb.entries cur hmem
  rw [hgc] at hle
  obtain ⟨cv, hgv, hcvle⟩ := WithTop.le_coe_iff.mp hle
  refine ⟨cv, hgv, hdb.realize _ cv hgv, ?_⟩
  intro c' hp'
  obtain ⟨e', he', ce', hce', hlece⟩ := db_cover G start st hnn htg hdb hrel hp' hcl
  have hmin := popMin_min st.opens cur rest hpop e' he'
  rw [hfg, hgc, (hdb.entries e' he').2.1, hce'] at hmin
  have hccur : ccur ≤ ce' := WithTop.coe_le_coe.mp hmin
  linarith

/-! ## Step preservation lemmas -/

theorem relaxOne_closed_same (G : Graph) (hw : GNode → GNode → Rat) (goal u : Nat)
    (st : AState) (vw : Nat × Rat) :
    (relaxOne G hw goal u st vw).closed = st.closed := by
  cases hcl : st.closed vw.1 with
  | true => rw [relaxOne_closed G hw goal u st vw hcl]
  | false =>
    by_cases himp : st.g u + (vw.2 : WithTop Rat) < st.g vw.1
    · rw [relaxOne_improve G hw goal u st vw hcl himp]
    · rw [relaxOne_keep G hw goal u st vw hcl himp]

theorem relaxOne_opens_le (G : Graph) (hw : GNode → GNode → Rat) (goal u : Nat)
    (st : AState) (vw : Nat × Rat) :
    (relaxOne G hw goal u st vw).opens.length ≤ st.opens.length + 1 := by
  cases hcl : st.closed vw.1 with
  | true => rw [relaxOne_closed G hw goal u st vw hcl]; omega
  | false =>
    by_cases himp : st.g u + (vw.2 : WithTop Rat) < st.g vw.1
    · rw [relaxOne_improve G hw goal u st vw hcl himp]
      simp
    · rw [relaxOne_keep G hw goal u st vw hcl himp]; omega

theorem relaxOne_g_le (G : Graph) (hw : GNode → GNode → Rat) (goal u : Nat)
    (st : AState) (vw : Nat × Rat) (x : Nat) :
    (relaxOne G hw goal u st vw).g x ≤ st.g x := by
  cases hcl : st.closed vw.1 with
  | true => rw [relaxOne_closed G hw goal u st vw hcl]
  | false =>
    by_cases himp : st.g u + (vw.2 : WithTop Rat) < st.g vw.1
    · rw [relaxOne_improve G hw goal u st vw hcl himp]
      dsimp only [updFn]
      split
      · rename_i hx
        rw [hx]
        exact le_of_lt himp
      · exact le_refl _
    · rw [relaxOne_keep G hw goal u st vw hcl himp]

theorem relaxOne_g_unclosed (G : Graph) (hw : GNode → GNode → Rat) (goal u : Nat)
    (st : AState) (vw : Nat × Rat) (x : Nat) (hx : st.closed x = true) :
    (relaxOne G hw goal u st vw).g x = st.g x := by
  cases hcl : st.closed vw.1 with
  | true => rw [relaxOne_closed G hw goal u st vw hcl]
  | false =>
    by_cases himp : st.g u + (vw.2 : WithTop Rat) < st.g vw.1
    · rw [relaxOne_improve G hw goal u st vw hcl himp]
      dsimp only [updFn]
      rw [if_neg]
      intro he
      rw [he] at hx
      rw [hx] at hcl
      exact absurd hcl (by simp)
    · rw [relaxOne_keep G hw goal u st vw hcl himp]

theorem db_skip (G : Graph) (start : Nat) (st : AState)
    (hdb : DB G start st) (hrel : RelaxedAll G st)
    (cur : AStarNode) (rest : List AStarNode)
    (hpop : popMin st.opens = some (cur, rest)) (hcl : st.closed cur.index = true) :
    DB G start { st with opens := rest } ∧ RelaxedAll G { st with opens := rest } := by
  have hperm := popMin_perm st.opens cur rest hpop
  constructor
  · refine ⟨?_, hdb.realize, hdb.settled, ?_, hdb.closedN, hdb.startle⟩
    · intro e he
      exact hdb.entries e (hperm.mem_iff.mpr (List.mem_cons_of_mem cur he))
    · intro v c hclv hgv
      obtain ⟨e, he, hei, hec⟩ := hdb.frontier v c hclv hgv
      rcases List.mem_cons.mp (hperm.mem_iff.mp he) with heq | he'
      · rw [heq] at hei
        rw [hei] at hcl
        rw [hcl] at hclv
        exact absurd hclv (by simp)
      · exact ⟨e, he', hei, hec⟩
  · exact hrel

theorem db_close (G : Graph) (start : Nat) (st : AState)
    (hnn : ∀ x, x < G.nodes.length → ∀ p ∈ Graph.neighbors G x, 0 ≤ p.2)
    (htg : ∀ x, x < G.nodes.length → ∀ p ∈ Graph.neighbors G x, p.1 < G.nodes.length)
    (hdb : DB G start st) (hrel : RelaxedAll G st)
    (cur : AStarNode) (rest : List AStarNode)
    (hpop : popMin st.opens = some (cur, rest)) (hcl : st.closed cur.index = false) :
    DB G start { st with opens := rest, closed := updFn st.closed cur.index true } ∧
    PartialRel G cur.index (Graph.neighbors G cur.index)
      { st with opens := rest, closed := updFn st.closed cur.index true } := by
  have hperm := popMin_perm st.opens cur rest hpop
  have hmemcur : cur ∈ st.opens := hperm.mem_iff.mpr (List.mem_cons_self cur rest)
  have hsettled := db_popclose G start st hnn htg hdb hrel cur rest hpop hcl
  constructor
  · refine ⟨?_, hdb.realize, ?_, ?_, ?_, hdb.startle⟩
    · intro e he
      exact hdb.entries e (hperm.mem_iff.mpr (List.mem_cons_of_mem cur he))
    · intro v hv
      dsimp only [updFn] at hv
      by_cases hveq : v = cur.index
      · rw [hveq]
        exact hsettled
      · rw [if_neg hveq] at hv
        exact hdb.settled v hv
    · intro v c hclv hgv
      dsimp only [updFn] at hclv
      by_cases hveq : v = cur.index
      · rw [if_pos hveq] at hclv
        exact absurd hclv (by simp)
      · rw [if_neg hveq] at hclv
        obtain ⟨e, he, hei, hec⟩ := hdb.frontier v c hclv hgv
        rcases List.mem_cons.mp (hperm.mem_iff.mp he) with heq | he'
        · rw [heq] at hei
          exact absurd hei.symm hveq
        · exact ⟨e, he', hei, hec⟩
    · intro v hv
      dsimp only [updFn] at hv
      by_cases hveq : v = cur.index
      · rw [hveq]
        exact (hdb.entries cur hmemcur).1
      · rw [if_neg hveq] at hv
        exact hdb.closedN v hv
  · intro x hx p hp
    dsimp only [updFn] at hx
    by_cases hxeq : x = cur.index
    · exact Or.inl ⟨hxeq, hxeq ▸ hp⟩
    · rw [if_neg hxeq] at hx
      rcases hrel x hx p hp with hclp | hgle
      · right; left
        dsimp only [updFn]
        split
        · rfl
        · exact hclp
      · right; right
        exact hgle

/-- PartialRel with its todo list emptied is RelaxedAll. -/
theorem partialRel_nil (G : Graph) (u : Nat) (st : AState)
    (h : PartialRel G u [] st) : RelaxedAll G st := by
  intro x hx p hp
  rcases h x hx p hp with ⟨_, hmem⟩ | h | h
  · exact absurd hmem (by simp)
  · exact Or.inl h
  · exact Or.inr h

theorem db_relaxOne (G : Graph) (start goal u : Nat) (st : AState) (vw : Nat × Rat)
    (todo : List (Nat × Rat))
    (htg : ∀ x, x < G.nodes.length → ∀ p ∈ Graph.neighbors G x, p.1 < G.nodes.length)
    (hu : u < G.nodes.length)
    (hmem : vw ∈ Graph.neighbors G u)
    (hclu : st.closed u = true)
    (hdb : DB G start st) (hpr : PartialRel G u (vw :: todo) st) :
    DB G start (relaxOne G zeroH goal u st vw) ∧
    PartialRel G u todo (relaxOne G zeroH goal u st vw) := by
  have hne_uv : st.closed vw.1 = false → u ≠ vw.1 := by
    intro hcl he
    rw [he] at hclu
    rw [hclu] at hcl
    exact absurd hcl (by simp)
  cases hcl : st.closed vw.1 with
  | true =>
    rw [relaxOne_closed G zeroH goal u st vw hcl]
    refine ⟨hdb, ?_⟩
    intro x hx p hp
    rcases hpr x hx p hp with ⟨hxu, hmem2⟩ | h | h
    · rcases List.mem_cons.mp hmem2 with heq | hmem3
      · right; left
        rw [heq]
        exact hcl
      · exact Or.inl ⟨hxu, hmem3⟩
    · exact Or.inr (Or.inl h)
    · exact Or.inr (Or.inr h)
  | false =>
    by_cases himp : st.g u + (vw.2 : WithTop Rat) < st.g vw.1
    · have hre' := relaxOne_realizes G zeroH goal u start htg st vw hmem hdb.realize
      rw [relaxOne_improve G zeroH goal u st vw hcl himp] at hre' ⊢
      have hvlt : vw.1 < G.nodes.length := htg u hu vw hmem
      have htne : st.g u + (vw.2 : WithTop Rat) ≠ ⊤ := ne_top_of_lt himp
      have hguf : st.g u ≠ ⊤ := by
        intro he
        rw [he] at htne
        exact htne (top_add _)
      obtain ⟨cu, hgu⟩ := Option.ne_none_iff_exists'.mp hguf
      have hpu : PathCost G start u cu := hdb.realize u cu hgu
      have htent2 : st.g u + (vw.2 : WithTop Rat) = ((cu + vw.2 : Rat) : WithTop Rat) := by
        rw [hgu, WithTop.coe_add]
        rfl
      have hpv : PathCost G start vw.1 (cu + vw.2) := hpu.append_edge hmem hvlt
      refine ⟨⟨?_, hre', ?_, ?_, ?_, ?_⟩, ?_⟩
      · -- entries
        intro e he
        rcases List.mem_append.mp he with he | he
        · obtain ⟨h1, h2, h3, h4⟩ := hdb.entries e he
          refine ⟨h1, h2, h3, ?_⟩
          refine le_trans ?_ h4
          dsimp only [updFn]
          split
          · rename_i hx
            rw [hx]
            exact le_of_lt himp
          · exact le_refl _
        · simp only [List.mem_singleton] at he
          rw [he]
          refine ⟨hvlt, ?_, ⟨cu + vw.2, htent2, hpv⟩, ?_⟩
          · show st.g u + (vw.2 : WithTop Rat) +
              ((zeroH (G.nodes.getD vw.1 dummyNode) (G.nodes.getD goal dummyNode) : Rat) :
                WithTop Rat) = st.g u + (vw.2 : WithTop Rat)
            show st.g u + (vw.2 : WithTop Rat) + ((0 : Rat) : WithTop Rat) =
              st.g u + (vw.2 : WithTop Rat)
            rw [WithTop.coe_zero, add_zero]
          · show updFn st.g vw.1 (st.g u + (vw.2 : WithTop Rat)) vw.1 ≤
              st.g u + (vw.2 : WithTop Rat)
            dsimp only [updFn]
            rw [if_pos rfl]
      · -- settled
        intro v hv
        obtain ⟨cv, hgv, hpcv, hmin⟩ := hdb.settled v hv
        refine ⟨cv, ?_, hpcv, hmin⟩
        dsimp only [updFn]
        rw [if_neg]
        · exact hgv
        · intro he
          rw [he] at hv
          rw [hv] at hcl
          exact absurd hcl (by simp)
      · -- frontier
        intro v c hclv hgv
        dsimp only [updFn] at hgv
        by_cases hveq : v = vw.1
        · rw [if_pos hveq] at hgv
          refine ⟨⟨vw.1, st.g u + (vw.2 : WithTop Rat),
            st.g u + (vw.2 : WithTop Rat) +
              ((zeroH (G.nodes.getD vw.1 dummyNode) (G.nodes.getD goal dummyNode) : Rat) :
                WithTop Rat), Int.ofNat u⟩,
            List.mem_append_right _ (List.mem_singleton_self _), hveq.symm, hgv⟩
        · rw [if_neg hveq] at hgv
          obtain ⟨e, he, hei, hec⟩ := hdb.frontier v c hclv hgv
          exact ⟨e, List.mem_append_left _ he, hei, hec⟩
      · -- closedN
        exact hdb.closedN
      · -- startle
        dsimp only [updFn]
        split
        · rename_i hx
          refine le_trans (le_of_lt ?_) hdb.startle
          rw [hx]
          exact himp
        · exact hdb.startle
      · -- PartialRel todo
        intro x hx p hp
        rcases hpr x hx p hp with ⟨hxu, hmem2⟩ | h | h
        · rcases List.mem_cons.mp hmem2 with heq | hmem3
          · right; right
            rw [heq, hxu]
            dsimp only [updFn]
            rw [if_pos rfl, if_neg (hne_uv hcl)]
          · exact Or.inl ⟨hxu, hmem3⟩
        · exact Or.inr (Or.inl h)
        · right; right
          have hx_ne : x ≠ vw.1 := by
            intro he
            rw [he] at hx
            rw [hx] at hcl
            exact absurd hcl (by simp)
          dsimp only [updFn]
          rw [if_neg hx_ne]
          refine le_trans ?_ h
          split
          · rename_i hpe
            rw [hpe]
            exact le_of_lt himp
          · exact le_refl _
    · rw [relaxOne_keep G zeroH goal u st vw hcl himp]
      refine ⟨hdb, ?_⟩
      intro x hx p hp
      rcases hpr x hx p hp with ⟨hxu, hmem2⟩ | h | h
      · rcases List.mem_cons.mp hmem2 with heq | hmem3
        · right; right
          rw [heq, hxu]
          exact le_of_not_lt himp
        · exact Or.inl ⟨hxu, hmem3⟩
      · exact Or.inr (Or.inl h)
      · exact Or.inr (Or.inr h)

theorem relaxFold_closed_same (G : Graph) (hw : GNode → GNode → Rat) (goal u : Nat) :
    ∀ (todo : List (Nat × Rat)) (st : AState),
      (todo.foldl (relaxOne G hw goal u) st).closed = st.closed := by
  intro todo
  induction todo with
  | nil => intro st; rfl
  | cons x xs ih =>
    intro st
    simp only [List.foldl_cons]
    rw [ih, relaxOne_closed_same]

theorem relaxFold_opens_le (G : Graph) (hw : GNode → GNode → Rat) (goal u : Nat) :
    ∀ (todo : List (Nat × Rat)) (st : AState),
      (todo.foldl (relaxOne G hw goal u) st).opens.length ≤
        st.opens.length + todo.length := by
  intro todo
  induction todo with
  | nil => intro st; simp
  | cons x xs ih =>
    intro st
    simp only [List.foldl_cons, List.length_cons]
    have h1 := ih (relaxOne G hw goal u st x)
    have h2 := relaxOne_opens_le G hw goal u st x
    omega

theorem db_relaxFold (G : Graph) (start goal u : Nat)
    (htg : ∀ x, x < G.nodes.length → ∀ p ∈ Graph.neighbors G x, p.1 < G.nodes.length)
    (hu : u < G.nodes.length) :
    ∀ (todo : List (Nat × Rat)) (st : AState),
      (∀ p ∈ todo, p ∈ Graph.neighbors G u) →
      st.closed u = true → DB G start st → PartialRel G u todo st →
      DB G start (todo.foldl (relaxOne G zeroH goal u) st) ∧
      RelaxedAll G (todo.foldl (relaxOne G zeroH goal u) st) := by
  intro todo
  induction todo with
  | nil =>
    intro st _ _ hdb hpr
    exact ⟨hdb, partialRel_nil G u st hpr⟩
  | cons x xs ih =>
    intro st hmem hclu hdb hpr
    simp only [List.foldl_cons]
    have step := db_relaxOne G start goal u st x xs htg hu
      (hmem x (List.mem_cons_self x xs)) hclu hdb hpr
    exact ih _ (fun p hp => hmem p (List.mem_cons_of_mem x hp))
      (by rw [relaxOne_closed_same]; exact hclu) step.1 step.2

/-! ## Termination measure arithmetic -/

theorem filter_updFn_length (c : Nat → Bool) (v : Nat) (hcv : c v = false) :
    ∀ (l : List Nat), l.Nodup → v ∈ l →
      (l.filter (fun x => updFn c v true x = false)).length + 1 =
      (l.filter (fun x => c x = false)).length := by
  intro l
  induction l with
  | nil => intro _ h; simp at h
  | cons x xs ih =>
    intro hnd hv
    have hnd2 := List.nodup_cons.mp hnd
    rcases List.mem_cons.mp hv with heq | hv'
    · rw [← heq]
      have htail : xs.filter (fun x => updFn c v true x = false) =
          xs.filter (fun x => c x = false) := by
        apply List.filter_congr
        intro y hy
        have hyne : y ≠ v := by
          intro he
          rw [he] at hy
          rw [← heq] at hnd2
          exact hnd2.1 hy
        simp only [updFn, if_neg hyne]
      rw [List.filter_cons, List.filter_cons]
      have h1 : (decide (updFn c v true v = false)) = false := by
        simp [updFn]
      have h2 : (decide (c v = false)) = true := by simp [hcv]
      rw [h1, h2, if_neg (by simp), if_pos rfl, htail, List.length_cons]
    · have hxne : x ≠ v := by
        intro he
        rw [he] at hnd2
        exact hnd2.1 hv'
      rw [List.filter_cons, List.filter_cons]
      have hpred : (decide (updFn c v true x = false)) = (decide (c x = false)) := by
        simp only [updFn, if_neg hxne]
      rw [hpred]
      cases hdx : decide (c x = false) with
      | true =>
        rw [if_pos rfl, if_pos rfl, List.length_cons, List.length_cons]
        have := ih hnd2.2 hv'
        omega
      | false =>
        rw [if_neg (by simp), if_neg (by simp)]
        exact ih hnd2.2 hv'

theorem unclosedCount_close (G : Graph) (c : Nat → Bool) (v : Nat)
    (hv : v < G.nodes.length) (hcv : c v = false) :
    ((List.range G.nodes.length).filter (fun x => updFn c v true x = false)).length + 1 =
    ((List.range G.nodes.length).filter (fun x => c x = false)).length :=
  filter_updFn_length c v hcv (List.range G.nodes.length) (List.nodup_range _)
    (List.mem_range.mpr hv)

/-! ## The loop postcondition -/

theorem aloop_post (G : Graph) (start goal : Nat)
    (hnn : ∀ x, x < G.nodes.length → ∀ p ∈ Graph.neighbors G x, 0 ≤ p.2)
    (htg : ∀ x, x < G.nodes.length → ∀ p ∈ Graph.neighbors G x, p.1 < G.nodes.length)
    (hdeg : ∀ x, x < G.nodes.length → (Graph.neighbors G x).length ≤ G.edges.length) :
    ∀ (fuel : Nat) (st : AState), DB G start st → RelaxedAll G st →
      work G st ≤ fuel →
      DB G start (aloop G zeroH goal fuel st) ∧
      ((aloop G zeroH goal fuel st).closed goal = true ∨
        ((aloop G zeroH goal fuel st).opens = [] ∧
          RelaxedAll G (aloop G zeroH goal fuel st))) := by
  intro fuel
  induction fuel with
  | zero =>
    intro st hdb hrel hwork
    rw [aloop_zero]
    refine ⟨hdb, Or.inr ⟨?_, hrel⟩⟩
    have hlen : st.opens.length = 0 := by
      unfold work at hwork
      omega
    exact List.length_eq_zero.mp hlen
  | succ n ih =>
    intro st hdb hrel hwork
    cases hpop : popMin st.opens with
    | none =>
      rw [aloop_none G zeroH goal n st hpop]
      exact ⟨hdb, Or.inr ⟨(popMin_eq_none st.opens).mp hpop, hrel⟩⟩
    | some p =>
      rcases p with ⟨cur, rest⟩
      have hlen : st.opens.length = rest.length + 1 := by
        have := (popMin_perm st.opens cur rest hpop).length_eq
        simpa using this
      cases hcl : st.closed cur.index with
      | true =>
        rw [aloop_skip G zeroH goal n st cur rest hpop hcl]
        have hsk := db_skip G start st hdb hrel cur rest hpop hcl
        refine ih _ hsk.1 hsk.2 ?_
        unfold work at hwork ⊢
        unfold unclosedCount at hwork ⊢
        simp only at hwork ⊢
        omega
      | false =>
        have hmemcur : cur ∈ st.opens :=
          (popMin_perm st.opens cur rest hpop).mem_iff.mpr (List.mem_cons_self cur rest)
        have hidx : cur.index < G.nodes.length := (hdb.entries cur hmemcur).1
        have hcount := unclosedCount_close G st.closed cur.index hidx hcl
        by_cases hgoal : cur.index = goal
        · rw [aloop_break G zeroH goal n st cur rest hpop hcl hgoal]
          have hc := db_close G start st hnn htg hdb hrel cur rest hpop hcl
          refine ⟨hc.1, Or.inl ?_⟩
          show updFn st.closed cur.index true goal = true
          dsimp only [updFn]
          rw [if_pos hgoal.symm]
        · rw [aloop_step G zeroH goal n st cur rest hpop hcl hgoal]
          have hc := db_close G start st hnn htg hdb hrel cur rest hpop hcl
          have hclu2 : (updFn st.closed cur.index true) cur.index = true := by
            dsimp only [updFn]
            rw [if_pos rfl]
          have hfold := db_relaxFold G start goal cur.index htg hidx
            (Graph.neighbors G cur.index)
            { st with opens := rest, closed := updFn st.closed cur.index true }
            (fun p hp => hp) hclu2 hc.1 hc.2
          refine ih _ hfold.1 hfold.2 ?_
          have hcs := relaxFold_closed_same G zeroH goal cur.index
            (Graph.neighbors G cur.index)
            { st with opens := rest, closed := updFn st.closed cur.index true }
          have hol := relaxFold_opens_le G zeroH goal cur.index
            (Graph.neighbors G cur.index)
            { st with opens := rest, closed := updFn st.closed cur.index true }
          have hd := hdeg cur.index hidx
          unfold relaxEdges
          unfold work at hwork ⊢
          unfold unclosedCount at hwork hcount ⊢
          rw [hcs]
          have hkb := congrArg (fun z => z * (G.edges.length + 1)) hcount
          simp only [Nat.succ_mul] at hkb
          simp only at hwork hol hcount hkb ⊢
          omega

/-- Work measure of a state with nothing closed and a single open entry. -/
theorem work_init (G : Graph) (st : AState) (hcl : ∀ v, st.closed v = false)
    (hop : st.opens.length = 1) :
    work G st = G.nodes.length * (G.edges.length + 1) + 1 := by
  unfold work unclosedCount
  rw [hop]
  have hfil : (List.range G.nodes.length).filter (fun v => decide (st.closed v = false)) =
      List.range G.nodes.length := by
    apply List.filter_eq_self.mpr
    intro a _
    simp [hcl a]
  rw [hfil, List.length_range]

/-! ## Claim C4: shortest-cost correctness -/

/-- C4 amended: run with the zero heuristic (turning the source loop into
plain Dijkstra), `shortest_path` returns the minimal sum of edge weights over
all directed paths from `start` to a reachable `goal`, on every graph with
non-negative weights. The hypotheses `htg`/`hdeg` are the Graph
well-formedness facts enforced by `add_edge` (valid targets, and a node's
adjacency list is a sub-collection of the edge vector). -/
theorem c4_zero_heuristic_returns_minimal_cost (G : Graph) (start goal : Nat)
    (hs : start < G.nodes.length) (hgl : goal < G.nodes.length)
    (hnn : ∀ x, x < G.nodes.length → ∀ p ∈ Graph.neighbors G x, 0 ≤ p.2)
    (htg : ∀ x, x < G.nodes.length → ∀ p ∈ Graph.neighbors G x, p.1 < G.nodes.length)
    (hdeg : ∀ x, x < G.nodes.length → (Graph.neighbors G x).length ≤ G.edges.length)
    (hreach : Reach G start goal) :
    ∃ c : Rat, (shortest_path zeroH G start goal).total_cost = some c ∧
      PathCost G start goal c ∧ ∀ c', PathCost G start goal c' → c ≤ c' := by
  have hdb0 : DB G start
      { g := updFn (fun _ => ⊤) start (some 0),
        parent := fun _ => -1,
        closed := fun _ => false,
        opens := [⟨start, some 0,
          ((zeroH (G.nodes.getD start dummyNode) (G.nodes.getD goal dummyNode) : Rat) :
            WithTop Rat), -1⟩] } := by
    refine ⟨?_, ?_, ?_, ?_, ?_, ?_⟩
    · intro e he
      simp only [List.mem_singleton] at he
      rw [he]
      refine ⟨hs, rfl, ⟨0, rfl, PathCost.nil start hs⟩, ?_⟩
      dsimp only [updFn]
      rw [if_pos rfl]
    · intro v c hc
      simp only [updFn] at hc
      split at hc
      · rename_i hveq
        rw [hveq]
        exact (PathCost.nil start hs).cast (Option.some.inj hc)
      · exact absurd hc (by simp)
    · intro v hv
      exact absurd hv (by simp)
    · intro v c hclv hgv
      simp only [updFn] at hgv
      split at hgv
      · rename_i hveq
        exact ⟨_, List.mem_singleton_self _, hveq.symm, hgv⟩
      · exact absurd hgv (by simp)
    · intro v hv
      exact absurd hv (by simp)
    · dsimp only [updFn]
      rw [if_pos rfl]
  have hrel0 : RelaxedAll G
      { g := updFn (fun _ => ⊤) start (some 0),
        parent := fun _ => -1,
        closed := fun _ => false,
        opens := [⟨start, some 0,
          ((zeroH (G.nodes.getD start dummyNode) (G.nodes.getD goal dummyNode) : Rat) :
            WithTop Rat), -1⟩] } := by
    intro u hu
    exact absurd hu (by simp)
  have hwork0 : work G
      { g := updFn (fun _ => ⊤) start (some 0),
        parent := fun _ => -1,
        closed := fun _ => false,
        opens := [⟨start, some 0,
          ((zeroH (G.nodes.getD start dummyNode) (G.nodes.getD goal dummyNode) : Rat) :
            WithTop Rat), -1⟩] } ≤ (G.nodes.length + 1) * (G.edges.length + 1) + 1 := by
    rw [work_init G _ (fun v => rfl) (by simp)]
    have hmul : G.nodes.length * (G.edges.length + 1) ≤
        (G.nodes.length + 1) * (G.edges.length + 1) :=
      Nat.mul_le_mul_right _ (Nat.le_succ _)
    omega
  obtain ⟨hdbf, hcase⟩ := aloop_post G start goal hnn htg hdeg
    ((G.nodes.length + 1) * (G.edges.length + 1) + 1) _ hdb0 hrel0 hwork0
  have hclosedgoal : (aloop G zeroH goal ((G.nodes.length + 1) * (G.edges.length + 1) + 1)
      { g := updFn (fun _ => ⊤) start (some 0),
        parent := fun _ => -1,
        closed := fun _ => false,
        opens := [⟨start, some 0,
          ((zeroH (G.nodes.getD start dummyNode) (G.nodes.getD goal dummyNode) : Rat) :
            WithTop Rat), -1⟩] }).closed goal = true := by
    rcases hcase with h | ⟨hopens, hrelf⟩
    · exact h
    · cases h2 : (aloop G zeroH goal ((G.nodes.length + 1) * (G.edges.length + 1) + 1)
          { g := updFn (fun _ => ⊤) start (some 0),
            parent := fun _ => -1,
            closed := fun _ => false,
            opens := [⟨start, some 0,
              ((zeroH (G.nodes.getD start dummyNode) (G.nodes.getD goal dummyNode) : Rat) :
                WithTop Rat), -1⟩] }).closed goal with
      | true => rfl
      | false =>
        obtain ⟨c, hpc⟩ := hreach
        obtain ⟨e, he, _⟩ := db_cover G start _ hnn htg hdbf hrelf hpc h2
        rw [hopens] at he
        exact absurd he (by simp)
  obtain ⟨c, hgc, hpc, hmin⟩ := hdbf.settled goal hclosedgoal
  refine ⟨c, ?_, hpc, hmin⟩
  unfold shortest_path
  simp only [hgc]

/-- The three-node graph on which the meters-unit heuristic misleads the
closed-set A*: the direct edge 0→2 costs 10, the two-hop path 0→1→2 costs 3. -/
def g3 : Graph :=
  (((((Graph.empty.add_node 0 0 0).add_node 1 1 0).add_node 2 0 1).add_edge
    0 0 2 10).add_edge 1 0 1 1).add_edge 2 1 2 2

/-- A genuine distance function (a metric of the latitudes) in a unit 100x
the edge weights, mirroring the source's meters-valued haversine heuristic
over seconds-valued edge weights. -/
def hw3 : GNode → GNode → Rat := fun a b => 100 * |a.lat - b.lat|

/-- The cheap two-hop path of `g3`. -/
theorem g3_path3 : PathCost g3 0 2 3 := by
  have h12 : PathCost g3 1 2 (2 + 0) :=
    PathCost.cons 1 2 2 2 0 (by decide) (by decide) (PathCost.nil 2 (by decide))
  have h02 : PathCost g3 0 2 (1 + (2 + 0)) :=
    PathCost.cons 0 1 2 1 (2 + 0) (by decide) (by decide) h12
  exact h02.cast (by norm_num)

/-- C4 counterexample: the claim — that `shortest_path` returns the minimal
path cost for every non-negative-weight graph and reachable goal pair,
independently of the heuristic's unit — is false: with heuristic `hw3`
(a distance in a unit 100x the weights) on `g3`, the search closes the goal
through the direct edge and returns 10, while the minimal cost is 3. -/
theorem c4_counterexample :
    ¬ (∀ (hw : GNode → GNode → Rat) (G : Graph) (start goal : Nat),
        start < G.nodes.length → goal < G.nodes.length →
        (∀ x, x < G.nodes.length → ∀ p ∈ Graph.neighbors G x, 0 ≤ p.2) →
        (∀ x, x < G.nodes.length → ∀ p ∈ Graph.neighbors G x, p.1 < G.nodes.length) →
        (∀ x, x < G.nodes.length → (Graph.neighbors G x).length ≤ G.edges.length) →
        Reach G start goal →
        ∃ c : Rat, (shortest_path hw G start goal).total_cost = some c ∧
          PathCost G start goal c ∧ ∀ c', PathCost G start goal c' → c ≤ c') := by
  intro h
  obtain ⟨c, hc, _, hmin⟩ := h hw3 g3 0 2 (by decide) (by decide) (by decide) (by decide)
    (by decide) ⟨3, g3_path3⟩
  have h10 : (shortest_path hw3 g3 0 2).total_cost = some 10 := by decide
  rw [h10] at hc
  have hc10 : c = 10 := (Option.some.inj hc).symm
  have := hmin 3 g3_path3
  rw [hc10] at this
  norm_num at this

/-- C4 witness: the amended theorem at the concrete graph `g3`: the
zero-heuristic run returns the true minimum 3. -/
theorem c4_witness :
    ∃ c : Rat, (shortest_path zeroH g3 0 2).total_cost = some c ∧
      PathCost g3 0 2 c ∧ ∀ c', PathCost g3 0 2 c' → c ≤ c' :=
  c4_zero_heuristic_returns_minimal_cost g3 0 2 (by decide) (by decide) (by decide)
    (by decide) (by decide) ⟨3, g3_path3⟩

/-! ## Claim C3: update_edge by coordinate with directional filter
(part_005, first variant, lines 94-179).

The equirectangular projection `to_xy` (part_005, lines 31-36) multiplies by
pi and a cosine, so it is passed as the oracle `proj`. The source computes the
point-to-segment distance `d` and then uses it twice: once compared against
`best` (a plain `double` comparison), and once implicitly converted to `int`
as the key of `unordered_map<int, vector<int>> table`. The embedding carries
the exact squared distance `dsq = d*d`: comparisons of `d` become comparisons
of `dsq` (the square root is monotone), and the `(int)d` truncation becomes
`Nat.sqrt (floor dsq)`, which equals the floor of the real square root. -/

/-- `enum struct Direction` (router.h). -/
inductive Direction
  | N | E | S | W | NE | NW | SE | SW | BOTH | NONE
deriving DecidableEq, Repr

/-- `RoutingEngine::matches_direction` (part_005, lines 94-125). -/
def matches_direction (from_lat from_lon to_lat to_lon : Rat) (dir : Direction) : Bool :=
  match dir with
  | Direction.BOTH => true
  | Direction.NONE => true
  | _ =>
    let dlat := to_lat - from_lat
    let dlon := to_lon - from_lon
    if dlat = 0 ∧ dlon = 0 then false
    else
      match dir with
      | Direction.N => decide (dlat > 0)
      | Direction.S => decide (dlat < 0)
      | Direction.E => decide (dlon > 0)
      | Direction.W => decide (dlon < 0)
      | Direction.NE => decide (dlat > 0 ∧ dlon > 0)
      | Direction.NW => decide (dlat > 0 ∧ dlon < 0)
      | Direction.SE => decide (dlat < 0 ∧ dlon > 0)
      | Direction.SW => decide (dlat < 0 ∧ dlon < 0)
      | _ => true

/-- Squared `point_to_segment_distance` (part_005, lines 40-73), over the
projection oracle `proj` standing for `to_xy`. -/
def point_to_segment_dsq (proj : Rat → Rat → Rat × Rat)
    (plat plon alat alon blat blon : Rat) : Rat :=
  let P := proj plat plon
  let A := proj alat alon
  let B := proj blat blon
  let ABx := B.1 - A.1
  let ABy := B.2 - A.2
  let APx := P.1 - A.1
  let APy := P.2 - A.2
  let ab2 := ABx * ABx + ABy * ABy
  if ab2 = 0 then APx * APx + APy * APy
  else
    let t0 := (APx * ABx + APy * ABy) / ab2
    let t := if t0 < 0 then 0 else if t0 > 1 then 1 else t0
    let Cx := A.1 + t * ABx
    let Cy := A.2 + t * ABy
    (P.1 - Cx) * (P.1 - Cx) + (P.2 - Cy) * (P.2 - Cy)

/-- Fuel-driven integer square root scan (structural recursion so that the
kernel can evaluate it; `Nat.sqrt` is defined by well-founded recursion and
does not reduce under `decide`). -/
def isqrtGo (n : Nat) : Nat → Nat → Nat
  | 0, k => k
  | fuel + 1, k => if (k + 1) * (k + 1) ≤ n then isqrtGo n fuel (k + 1) else k

/-- Integer square root: the largest `r` with `r * r ≤ n`. -/
def isqrt (n : Nat) : Nat := isqrtGo n n 0

theorem isqrtGo_spec (n : Nat) :
    ∀ (fuel k : Nat), k * k ≤ n → n ≤ k + fuel →
      isqrtGo n fuel k * isqrtGo n fuel k ≤ n ∧
      n < (isqrtGo n fuel k + 1) * (isqrtGo n fuel k + 1) := by
  intro fuel
  induction fuel with
  | zero =>
    intro k hk hn
    unfold isqrtGo
    refine ⟨hk, ?_⟩
    have hsq : k + 1 ≤ (k + 1) * (k + 1) := Nat.le_mul_of_pos_left _ (Nat.succ_pos k)
    omega
  | succ m ih =>
    intro k hk hn
    unfold isqrtGo
    split
    · rename_i hle
      exact ih (k + 1) hle (by omega)
    · rename_i hgt
      exact ⟨hk, by omega⟩

/-- The scan computes the floor of the real square root. -/
theorem isqrt_spec (n : Nat) :
    isqrt n * isqrt n ≤ n ∧ n < (isqrt n + 1) * (isqrt n + 1) :=
  isqrtGo_spec n n 0 (by omega) (by omega)

/-- The `int` key the source uses for `table[d]`: truncation toward zero of
`d = sqrt dsq`, i.e. the integer square root of the floor of the squared
distance (which is the floor of the real square root of a non-negative `q`). -/
def sqKey (q : Rat) : Int := Int.ofNat (isqrt q.floor.toNat)

/-- `table[k].push_back(i)` on the `unordered_map<int, vector<int>>` model. -/
def tblPush (tbl : List (Int × List Nat)) (k : Int) (i : Nat) : List (Int × List Nat) :=
  if tbl.any (fun p => p.1 == k) then
    tbl.map (fun p => if p.1 == k then (p.1, p.2 ++ [i]) else p)
  else tbl ++ [(k, [i])]

/-- Read `table[k]`; a missing key is the default-constructed empty vector. -/
def tblGet (tbl : List (Int × List Nat)) (k : Int) : List Nat :=
  match tbl.find? (fun p => p.1 == k) with
  | some p => p.2
  | none => []

/-- Squared distance of the query point to edge `i` (through the node
coordinates, as the source reads them). -/
def edgeDsq (proj : Rat → Rat → Rat × Rat) (g : Graph) (lat lon : Rat) (i : Nat) : Rat :=
  point_to_segment_dsq proj lat lon
    (g.nodes.getD (g.edges.getD i dummyEdge).efrom dummyNode).lat
    (g.nodes.getD (g.edges.getD i dummyEdge).efrom dummyNode).lon
    (g.nodes.getD (g.edges.getD i dummyEdge).eto dummyNode).lat
    (g.nodes.getD (g.edges.getD i dummyEdge).eto dummyNode).lon

/-- Whether edge `i` passes the directional filter. -/
def edgePass (g : Graph) (dir : Direction) (i : Nat) : Bool :=
  matches_direction
    (g.nodes.getD (g.edges.getD i dummyEdge).efrom dummyNode).lat
    (g.nodes.getD (g.edges.getD i dummyEdge).efrom dummyNode).lon
    (g.nodes.getD (g.edges.getD i dummyEdge).eto dummyNode).lat
    (g.nodes.getD (g.edges.getD i dummyEdge).eto dummyNode).lon dir

/-- One iteration of the `find_nearest_edge` loop (part_005, lines 138-149):
filtered edges are recorded in the table under their truncated distance; the
running minimum tracks ALL edges (the comparison `d <= best` is outside the
filter). -/
def fneStep (proj : Rat → Rat → Rat × Rat) (g : Graph) (lat lon : Rat) (dir : Direction)
    (acc : List (Int × List Nat) × Option Rat) (i : Nat) :
    List (Int × List Nat) × Option Rat :=
  let dsq := edgeDsq proj g lat lon i
  let tbl := if edgePass g dir i then tblPush acc.1 (sqKey dsq) i else acc.1
  let best := match acc.2 with
    | none => some dsq
    | some b => if dsq ≤ b then some dsq else acc.2
  (tbl, best)

/-- The running minimum over all edges (the `best` double of the source; the
`DBL_MAX` sentinel is `none`). -/
def bestDsq (proj : Rat → Rat → Rat × Rat) (g : Graph) (lat lon : Rat) (dir : Direction) :
    Option Rat :=
  ((List.range g.edges.length).foldl (fneStep proj g lat lon dir) ([], none)).2

/-- `RoutingEngine::find_nearest_edge` (part_005, lines 129-153): returns
`table[best]`. On the empty edge list the C++ `table[(int)DBL_MAX]` is the
default empty bucket, modelled directly as `[]`. -/
def find_nearest_edge (proj : Rat → Rat → Rat × Rat) (g : Graph) (lat lon : Rat)
    (dir : Direction) : List Nat :=
  let r := (List.range g.edges.length).foldl (fneStep proj g lat lon dir) ([], none)
  match r.2 with
  | none => []
  | some b => tblGet r.1 (sqKey b)

/-- `RoutingEngine::update_edge(double lat, double lon, double weight, Direction)`
(part_005, lines 169-179): for each returned index, calls
`Graph::update_edge_weight` with the INDEX as the id (the indices are never
negative, so the `e < 0` early return never fires). -/
def update_edge_by_coord (proj : Rat → Rat → Rat × Rat) (g : Graph)
    (lat lon w : Rat) (dir : Direction) : Graph :=
  (find_nearest_edge proj g lat lon dir).foldl
    (fun acc e => Graph.update_edge_weight acc (Int.ofNat e) w) g

/-- Rewriting `tblGet` through `Option` combinators. -/
theorem tblGet_eq (tbl : List (Int × List Nat)) (k : Int) :
    tblGet tbl k = ((tbl.find? (fun p => p.1 == k)).map Prod.snd).getD [] := by
  unfold tblGet
  rcases h : tbl.find? (fun p => p.1 == k) with _ | p <;> simp [h]

/-- Pushing under key `k` appends to the bucket read back at `k`. -/
theorem tblGet_tblPush_same (tbl : List (Int × List Nat)) (k : Int) (i : Nat) :
    tblGet (tblPush tbl k i) k = tblGet tbl k ++ [i] := by
  rw [tblGet_eq, tblGet_eq]
  unfold tblPush
  by_cases hany : tbl.any (fun p => p.1 == k) = true
  · rw [if_pos hany, List.find?_map]
    rw [show ((fun q : Int × List Nat => q.1 == k) ∘
        (fun q : Int × List Nat => if q.1 == k then (q.1, q.2 ++ [i]) else q)) =
        (fun q : Int × List Nat => q.1 == k) from funext (fun q => by
          by_cases hq : (q.1 == k) = true <;> simp [Function.comp, hq])]
    rcases hfind : tbl.find? (fun p => p.1 == k) with _ | p
    · exfalso
      rcases List.any_eq_true.mp hany with ⟨x, hx, hpx⟩
      exact (List.find?_eq_none.mp hfind) x hx hpx
    · have hp := List.find?_some hfind
      simp [hfind, hp, beq_iff_eq.mp hp]
  · rw [if_neg hany, List.find?_append]
    have hnone : tbl.find? (fun p => p.1 == k) = none := by
      rw [List.find?_eq_none]
      intro x hx hpx
      exact hany (List.any_eq_true.mpr ⟨x, hx, hpx⟩)
    simp [hnone, List.find?]

/-- Pushing under key `k` leaves every other bucket unchanged. -/
theorem tblGet_tblPush_other (tbl : List (Int × List Nat)) (k k' : Int) (i : Nat)
    (h : k' ≠ k) :
    tblGet (tblPush tbl k i) k' = tblGet tbl k' := by
  rw [tblGet_eq, tblGet_eq]
  unfold tblPush
  by_cases hany : tbl.any (fun p => p.1 == k) = true
  · rw [if_pos hany, List.find?_map]
    rw [show ((fun q : Int × List Nat => q.1 == k') ∘
        (fun q : Int × List Nat => if q.1 == k then (q.1, q.2 ++ [i]) else q)) =
        (fun q : Int × List Nat => q.1 == k') from funext (fun q => by
          by_cases hq : (q.1 == k) = true <;> simp [Function.comp, hq])]
    rcases hfind : tbl.find? (fun p => p.1 == k') with _ | p
    · simp [hfind]
    · have hp := List.find?_some hfind
      have hpk : (p.1 == k) = false := by
        rcases hbk : (p.1 == k) with _ | _
        · rfl
        · exact absurd ((beq_iff_eq.mp hbk) ▸ beq_iff_eq.mp hp).symm h
      simp [hfind, hp, hpk, beq_eq_false_iff_ne.mp hpk]
  · rw [if_neg hany, List.find?_append]
    rcases hfind : tbl.find? (fun p => p.1 == k') with _ | p
    · have hkk : (k == k') = false := by
        rcases hbk : (k == k') with _ | _
        · rfl
        · exact absurd (beq_iff_eq.mp hbk).symm h
      simp [hfind, List.find?, hkk]
    · simp [hfind]


/-- The table component of one `find_nearest_edge` step. -/
theorem fneStep_fst (proj : Rat → Rat → Rat × Rat) (g : Graph) (lat lon : Rat)
    (dir : Direction) (acc : List (Int × List Nat) × Option Rat) (i : Nat) :
    (fneStep proj g lat lon dir acc i).1 =
      if edgePass g dir i then tblPush acc.1 (sqKey (edgeDsq proj g lat lon i)) i
      else acc.1 := rfl

/-- The running-minimum component of one `find_nearest_edge` step. -/
theorem fneStep_snd (proj : Rat → Rat → Rat × Rat) (g : Graph) (lat lon : Rat)
    (dir : Direction) (acc : List (Int × List Nat) × Option Rat) (i : Nat) :
    (fneStep proj g lat lon dir acc i).2 =
      match acc.2 with
      | none => some (edgeDsq proj g lat lon i)
      | some b => if edgeDsq proj g lat lon i ≤ b then some (edgeDsq proj g lat lon i)
                  else acc.2 := rfl

/-- Invariant of the `find_nearest_edge` loop after the first `n` edges:
`best` is the minimum squared distance over ALL processed edges (attained by
one of them), while the table holds, under each integer key, exactly the
direction-filtered edges whose truncated-square-root key equals it. -/
theorem fne_fold_inv (proj : Rat → Rat → Rat × Rat) (g : Graph) (lat lon : Rat)
    (dir : Direction) (n : Nat) :
    (((List.range n).foldl (fneStep proj g lat lon dir) ([], none)).2 = none → n = 0) ∧
    (∀ b, ((List.range n).foldl (fneStep proj g lat lon dir) ([], none)).2 = some b →
      (∀ i, i < n → b ≤ edgeDsq proj g lat lon i) ∧
      (∃ i, i < n ∧ edgeDsq proj g lat lon i = b)) ∧
    (∀ k, tblGet ((List.range n).foldl (fneStep proj g lat lon dir) ([], none)).1 k =
      (List.range n).filter
        (fun i => edgePass g dir i && (sqKey (edgeDsq proj g lat lon i) == k))) := by
  induction n with
  | zero =>
    refine ⟨fun _ => rfl, fun b hb => by simp at hb, fun k => rfl⟩
  | succ n ih =>
    obtain ⟨ih1, ih2, ih3⟩ := ih
    rw [List.range_succ, List.foldl_append, List.foldl_cons, List.foldl_nil]
    rcases hr2 : ((List.range n).foldl (fneStep proj g lat lon dir) ([], none)).2
      with _ | b
    · have hn0 : n = 0 := ih1 hr2
      subst hn0
      refine ⟨?_, ?_, ?_⟩
      · intro h
        rw [fneStep_snd] at h
        simp [hr2] at h
      · intro b hb
        rw [fneStep_snd] at hb
        simp only [hr2] at hb
        have hbeq : edgeDsq proj g lat lon 0 = b := by
          simpa using hb
        refine ⟨?_, 0, Nat.zero_lt_one, hbeq⟩
        intro i hi
        have : i = 0 := by omega
        subst this
        exact le_of_eq hbeq.symm
      · intro k
        rw [fneStep_fst]
        simp only [List.range_zero, List.foldl_nil]
        rcases hpass : edgePass g dir 0 with _ | _
        · rw [if_neg (by simp [hpass])]
          simp [tblGet, List.filter, hpass]
        · rw [if_pos rfl]
          by_cases hk : k = sqKey (edgeDsq proj g lat lon 0)
          · subst hk
            rw [tblGet_tblPush_same]
            simp [tblGet, List.filter, hpass]
          · rw [tblGet_tblPush_other _ _ _ _ hk]
            have hne : (sqKey (edgeDsq proj g lat lon 0) == k) = false :=
              beq_eq_false_iff_ne.mpr (fun hcontra => hk hcontra.symm)
            simp [tblGet, List.filter, hpass, hne]
    · obtain ⟨hlb, j, hj, hjb⟩ := ih2 b hr2
      refine ⟨?_, ?_, ?_⟩
      · intro h
        rw [fneStep_snd] at h
        simp only [hr2] at h
        split at h <;> simp_all
      · intro b' hb'
        rw [fneStep_snd] at hb'
        simp only [hr2] at hb'
        by_cases hle : edgeDsq proj g lat lon n ≤ b
        · rw [if_pos hle] at hb'
          have hbeq : edgeDsq proj g lat lon n = b' := Option.some.inj hb'
          refine ⟨?_, n, Nat.lt_succ_self n, hbeq⟩
          intro i hi
          rcases Nat.lt_succ_iff_lt_or_eq.mp hi with hlt | heq
          · exact le_trans (show b' ≤ b by rw [← hbeq]; exact hle) (hlb i hlt)
          · subst heq
            exact le_of_eq hbeq.symm
        · rw [if_neg hle] at hb'
          have hbeq : b = b' := Option.some.inj hb'
          subst hbeq
          refine ⟨?_, j, Nat.lt_succ_of_lt hj, hjb⟩
          intro i hi
          rcases Nat.lt_succ_iff_lt_or_eq.mp hi with hlt | heq
          · exact hlb i hlt
          · subst heq
            exact le_of_not_le hle
      · intro k
        rw [fneStep_fst, List.filter_append, ← ih3 k]
        rcases hpass : edgePass g dir n with _ | _
        · rw [if_neg (by simp [hpass])]
          simp [List.filter, hpass]
        · rw [if_pos rfl]
          by_cases hk : k = sqKey (edgeDsq proj g lat lon n)
          · subst hk
            rw [tblGet_tblPush_same]
            simp [List.filter, hpass]
          · rw [tblGet_tblPush_other _ _ _ _ hk]
            have hne : (sqKey (edgeDsq proj g lat lon n) == k) = false :=
              beq_eq_false_iff_ne.mpr (fun hcontra => hk hcontra.symm)
            simp [List.filter, hpass, hne]

/-- **C3** (amended). `update_edge(lat, lon, weight, dir)` does NOT update the
filtered edges tied for the minimum distance among the filtered edges: the
running minimum `best` is taken over ALL edges, filtered or not, while the
table only holds filtered edges. The set actually updated is exactly the set
of direction-filtered edges whose truncated integer distance key equals the
key of the global (unfiltered) minimum — possibly empty, and possibly missing
the filtered minimum entirely. -/
theorem c3_update_edge_by_coord_characterization
    (proj : Rat → Rat → Rat × Rat) (g : Graph) (lat lon : Rat) (dir : Direction)
    (hne : g.edges.length ≠ 0) :
    ∃ b,
      (∀ i, i < g.edges.length → b ≤ edgeDsq proj g lat lon i) ∧
      (∃ i, i < g.edges.length ∧ edgeDsq proj g lat lon i = b) ∧
      find_nearest_edge proj g lat lon dir =
        (List.range g.edges.length).filter
          (fun i => edgePass g dir i && (sqKey (edgeDsq proj g lat lon i) == sqKey b)) ∧
      ∀ w, update_edge_by_coord proj g lat lon w dir =
        ((List.range g.edges.length).filter
          (fun i => edgePass g dir i && (sqKey (edgeDsq proj g lat lon i) == sqKey b))).foldl
          (fun acc e => Graph.update_edge_weight acc (Int.ofNat e) w) g := by
  obtain ⟨h1, h2, h3⟩ := fne_fold_inv proj g lat lon dir g.edges.length
  rcases hr2 : ((List.range g.edges.length).foldl
      (fneStep proj g lat lon dir) ([], none)).2 with _ | b
  · exact absurd (h1 hr2) hne
  · obtain ⟨hlb, hat⟩ := h2 b hr2
    have hfne : find_nearest_edge proj g lat lon dir =
        (List.range g.edges.length).filter
          (fun i => edgePass g dir i && (sqKey (edgeDsq proj g lat lon i) == sqKey b)) := by
      unfold find_nearest_edge
      dsimp only
      simp only [hr2]
      exact h3 (sqKey b)
    refine ⟨b, hlb, hat, hfne, fun w => ?_⟩
    unfold update_edge_by_coord
    rw [hfne]

/-- Concrete projection oracle used on the C3 example: an equirectangular-style
map of (lat, lon) to plane coordinates (x, y) = (lon, lat). -/
def projW : Rat → Rat → Rat × Rat := fun lat lon => (lon, lat)

/-- Two parallel roads: edge 0 (id 0) runs south from (1, 3/10) to (-1, 3/10)
near the query point (0, 0); edge 1 (id 1) runs north from (-1, 11/2) to
(1, 11/2) far from it. -/
def g4 : Graph :=
  ((((((Graph.empty.add_node 0 (-1) (3/10)).add_node 1 1 (3/10)).add_node 2 (-1)
    (11/2)).add_node 3 1 (11/2)).add_edge 0 1 0 1).add_edge 1 2 3 1)

/-- **C3** as stated is FALSE: querying (0,0) with direction N on `g4`, the
only filtered edge is edge 1 (the north-heading one), so it is the minimum
among filtered edges and the claim demands its weight become 99; but the code
tracks the minimum over ALL edges (attained by the filtered-out south edge 0),
looks up the table at that minimum's integer key, finds no bucket, and updates
nothing. -/
theorem c3_counterexample :
    ¬ (∀ (proj : Rat → Rat → Rat × Rat) (g : Graph) (lat lon w : Rat)
        (dir : Direction) (j : Nat),
        j < g.edges.length → edgePass g dir j = true →
        (∀ i, i < g.edges.length → edgePass g dir i = true →
          edgeDsq proj g lat lon j ≤ edgeDsq proj g lat lon i) →
        ((update_edge_by_coord proj g lat lon w dir).edges.getD j dummyEdge).weight
          = w) := by
  intro h
  have hc := h projW g4 0 0 99 Direction.N 1 (by decide) (by decide) (by decide)
  revert hc
  decide

/-- Witness: the amended C3 characterization applied to the concrete graph
`g4` with the southbound filter, where the returned bucket is nonempty. -/
theorem c3_witness :
    g4.edges.length ≠ 0 ∧
    ∃ b,
      (∀ i, i < g4.edges.length → b ≤ edgeDsq projW g4 0 0 i) ∧
      (∃ i, i < g4.edges.length ∧ edgeDsq projW g4 0 0 i = b) ∧
      find_nearest_edge projW g4 0 0 Direction.S =
        (List.range g4.edges.length).filter
          (fun i => edgePass g4 Direction.S i &&
            (sqKey (edgeDsq projW g4 0 0 i) == sqKey b)) ∧
      ∀ w, update_edge_by_coord projW g4 0 0 w Direction.S =
        ((List.range g4.edges.length).filter
          (fun i => edgePass g4 Direction.S i &&
            (sqKey (edgeDsq projW g4 0 0 i) == sqKey b))).foldl
          (fun acc e => Graph.update_edge_weight acc (Int.ofNat e) w) g4 :=
  ⟨by decide,
   c3_update_edge_by_coord_characterization projW g4 0 0 Direction.S (by decide)⟩

/-! ## The matching engine (src/routing/src/matching.cpp)

Riders and drivers live in `unordered_map<int, ...>` registries, drivers are
also indexed by H3 cell, and riders are queued for the matching worker. The
H3 library calls (`latLngToCell`, `gridDisk`) and `calculate_distance`
(either `router_->route` or the haversine fallback) are oracles collected in
a `Geo` parameter. Mutexes only serialize access; the embedding is the
sequential semantics of one operation at a time (a quiescent interleaving). -/

/-- Oracles for the geospatial primitives: `location_to_h3` at `H3_RES`,
`get_neighboring_cells(center, 1)`, and `calculate_distance`. -/
structure Geo where
  cellOf : Rat × Rat → Nat
  disk : Nat → List Nat
  dist : Rat × Rat → Rat × Rat → Rat

/-- `enum class State` (matching.h line 29). -/
inductive MState
  | OPEN | MATCHED | CANCELLED | TIMEOUT
deriving DecidableEq, Repr

/-- `struct Rider` (matching.h lines 31-43): `processed_cv` and `post_time`
carry no matching-relevant state and are omitted. -/
structure Rider where
  id : Int
  bid : Rat
  loc : Rat × Rat
  state : MState
  pending_drivers : List Int
  processed : Bool
deriving DecidableEq, Repr

/-- `struct Driver` (matching.h lines 45-52). -/
structure Driver where
  id : Int
  ask : Rat
  loc : Rat × Rat
  state : MState
  inbox : List Int
deriving DecidableEq, Repr

/-- The engine state: `riders_`, `drivers_`, `drivers_by_cell_`, and the
`pending_riders_` FIFO queue, with the hash maps as association lists. -/
structure Engine where
  riders : List (Int × Rider)
  drivers : List (Int × Driver)
  cells : List (Nat × List Int)
  queue : List Int
deriving DecidableEq, Repr

/-- `unordered_map::find`. -/
def mapFind? {α : Type} (m : List (Int × α)) (k : Int) : Option α :=
  (m.find? (fun p => p.1 == k)).map Prod.snd

/-- `unordered_map::erase(key)`. -/
def mapErase {α : Type} (m : List (Int × α)) (k : Int) : List (Int × α) :=
  m.filter (fun p => p.1 != k)

/-- In-place mutation of the mapped value at `k` (through a reference). -/
def mapSet {α : Type} (m : List (Int × α)) (k : Int) (v : α) : List (Int × α) :=
  m.map (fun p => if p.1 == k then (k, v) else p)

/-- `drivers_by_cell_[cell].push_back(id)`: `operator[]` default-inserts the
bucket if absent. -/
def cellsPush (cs : List (Nat × List Int)) (c : Nat) (d : Int) :
    List (Nat × List Int) :=
  if cs.any (fun p => p.1 == c) then
    cs.map (fun p => if p.1 == c then (p.1, p.2 ++ [d]) else p)
  else cs ++ [(c, [d])]

/-- `auto& v = drivers_by_cell_[cell]; v.erase(remove(v, id))`: `operator[]`
default-inserts an empty bucket if absent, then the erase-remove idiom drops
every occurrence of `id` — and the bucket entry itself always stays. -/
def cellsRemove (cs : List (Nat × List Int)) (c : Nat) (d : Int) :
    List (Nat × List Int) :=
  if cs.any (fun p => p.1 == c) then
    cs.map (fun p => if p.1 == c then (p.1, p.2.filter (fun x => x != d)) else p)
  else cs ++ [(c, [])]

/-- `drivers_by_cell_.find(cell)` (no insertion). -/
def cellsFind? (cs : List (Nat × List Int)) (c : Nat) : Option (List Int) :=
  (cs.find? (fun p => p.1 == c)).map Prod.snd

/-- `MatchingEngine::add_rider` (matching.cpp lines 52-75): emplace fails on a
duplicate id and nothing happens; otherwise the rider is registered OPEN with
no pending drivers and its id is pushed on the worker queue. -/
def add_rider (s : Engine) (id : Int) (bid : Rat) (loc : Rat × Rat) : Engine :=
  match mapFind? s.riders id with
  | some _ => s
  | none =>
    { s with riders := s.riders ++ [(id, ⟨id, bid, loc, MState.OPEN, [], false⟩)],
             queue := s.queue ++ [id] }

/-- `MatchingEngine::add_driver` (matching.cpp lines 77-102): emplace fails on
a duplicate id; otherwise the driver is registered OPEN with an empty inbox
and appended to its cell's bucket. -/
def add_driver (g : Geo) (s : Engine) (id : Int) (ask : Rat) (loc : Rat × Rat) :
    Engine :=
  match mapFind? s.drivers id with
  | some _ => s
  | none =>
    { s with drivers := s.drivers ++ [(id, ⟨id, ask, loc, MState.OPEN, []⟩)],
             cells := cellsPush s.cells (g.cellOf loc) id }

/-- One inbox mutation through `drivers_.find(did)`: missing drivers are
skipped, otherwise the found driver's inbox is replaced by `F inbox`. -/
def inboxUpd (F : List Int → List Int) (ds : List (Int × Driver)) (did : Int) :
    List (Int × Driver) :=
  match mapFind? ds did with
  | some d => mapSet ds did { d with inbox := F d.inbox }
  | none => ds

/-- `MatchingEngine::cleanup_after_match` (matching.cpp lines 317-353): remove
the driver from its cell bucket, sweep `rider_id` from the inboxes of the
rider's pending drivers other than the accepting one, then erase both from
the registries. -/
def cleanup_after_match (g : Geo) (s : Engine) (rider_id driver_id : Int) :
    Engine :=
  let cells' := match mapFind? s.drivers driver_id with
    | some d => cellsRemove s.cells (g.cellOf d.loc) driver_id
    | none => s.cells
  let pending := match mapFind? s.riders rider_id with
    | some r => r.pending_drivers
    | none => []
  let drivers' := pending.foldl
    (fun ds od => if od == driver_id then ds
      else inboxUpd (fun ib => ib.filter (fun x => x != rider_id)) ds od)
    s.drivers
  { s with cells := cells',
           drivers := mapErase drivers' driver_id,
           riders := mapErase s.riders rider_id }

/-- `MatchingEngine::driver_accept` (matching.cpp lines 104-156): the five
guards in source order, each failure returning with nothing mutated; on
success both states become MATCHED and `cleanup_after_match` runs. The
returned `Bool` is the success/failure of the call (the C++ reports it on
stdout). -/
def driver_accept (g : Geo) (s : Engine) (driver_id rider_id : Int) :
    Engine × Bool :=
  match mapFind? s.drivers driver_id with
  | none => (s, false)
  | some driver =>
    match mapFind? s.riders rider_id with
    | none => (s, false)
    | some rider =>
      if rider_id ∈ driver.inbox then
        if driver.state = MState.OPEN then
          if rider.state = MState.OPEN then
            let s1 : Engine :=
              { s with drivers := mapSet s.drivers driver_id
                         { driver with state := MState.MATCHED },
                       riders := mapSet s.riders rider_id
                         { rider with state := MState.MATCHED } }
            (cleanup_after_match g s1 rider_id driver_id, true)
          else (s, false)
        else (s, false)
      else (s, false)

/-- `MatchingEngine::driver_cancel` (matching.cpp lines 158-175): missing
driver is a no-op; otherwise the driver is dropped from its cell bucket (the
bucket entry remains) and erased. -/
def driver_cancel (g : Geo) (s : Engine) (driver_id : Int) : Engine :=
  match mapFind? s.drivers driver_id with
  | none => s
  | some d =>
    { s with cells := cellsRemove s.cells (g.cellOf d.loc) driver_id,
             drivers := mapErase s.drivers driver_id }

/-- `MatchingEngine::rider_cancel` (matching.cpp lines 177-203): missing rider
is a no-op; otherwise the rider is erased and `rider_id` is swept from the
inboxes of exactly the drivers on its pending list. The worker queue is NOT
touched. -/
def rider_cancel (s : Engine) (rider_id : Int) : Engine :=
  match mapFind? s.riders rider_id with
  | none => s
  | some r =>
    { s with riders := mapErase s.riders rider_id,
             drivers := r.pending_drivers.foldl
               (inboxUpd (fun ib => ib.filter (fun x => x != rider_id)))
               s.drivers }

/-- Lexicographic insertion into a sorted `vector<pair<double,int>>`, the
order `std::sort` uses. -/
def insertPair (p : Rat × Int) : List (Rat × Int) → List (Rat × Int)
  | [] => [p]
  | q :: qs =>
    if p.1 < q.1 ∨ (p.1 = q.1 ∧ p.2 ≤ q.2) then p :: q :: qs
    else q :: insertPair p qs

/-- `std::sort(candidates)` on `(distance, id)` pairs. -/
def sortPairs (l : List (Rat × Int)) : List (Rat × Int) := l.foldr insertPair []

/-- `MatchingEngine::find_k_closest_drivers` (matching.cpp lines 249-286):
candidates from the rider's cell disk, keeping OPEN drivers with
`ask ≤ bid` and nonnegative distance; sorted by `(distance, id)`, first `k`
ids returned. -/
def find_k_closest_drivers (g : Geo) (s : Engine) (r : Rider) (k : Nat) :
    List Int :=
  let candidates := (g.disk (g.cellOf r.loc)).foldl
    (fun acc cell =>
      match cellsFind? s.cells cell with
      | none => acc
      | some bucket => bucket.foldl
          (fun acc2 did =>
            match mapFind? s.drivers did with
            | none => acc2
            | some d =>
              if d.state = MState.OPEN then
                if d.ask ≤ r.bid then
                  if g.dist r.loc d.loc < 0 then acc2
                  else acc2 ++ [(g.dist r.loc d.loc, did)]
                else acc2
              else acc2)
          acc)
    []
  (((sortPairs candidates).take k).map Prod.snd)

/-- `MatchingEngine::send_offers` (matching.cpp lines 288-306): append the
rider id to each offered driver's inbox, then overwrite the rider's
`pending_drivers` with the offered list. -/
def send_offers (s : Engine) (rider_id : Int) (driver_ids : List Int) : Engine :=
  let drivers' := driver_ids.foldl (inboxUpd (fun ib => ib ++ [rider_id]))
    s.drivers
  let riders' := match mapFind? s.riders rider_id with
    | some r => mapSet s.riders rider_id { r with pending_drivers := driver_ids }
    | none => s.riders
  { s with drivers := drivers', riders := riders' }

/-- `MatchingEngine::mark_rider_processed` (matching.cpp lines 308-315). -/
def mark_rider_processed (s : Engine) (rider_id : Int) : Engine :=
  match mapFind? s.riders rider_id with
  | some r => { s with riders := mapSet s.riders rider_id { r with processed := true } }
  | none => s

/-- One productive iteration of `MatchingEngine::matching_worker` (matching.cpp
lines 205-247): pop the queue front; skip a missing or non-OPEN rider (the
`processed` flag is NOT consulted); otherwise offer to the `K = 5` closest
drivers and mark the rider processed. -/
def process_rider (g : Geo) (s : Engine) : Engine :=
  match s.queue with
  | [] => s
  | rider_id :: rest =>
    let s0 : Engine := { s with queue := rest }
    match mapFind? s0.riders rider_id with
    | none => s0
    | some r =>
      if r.state = MState.OPEN then
        let driver_ids := find_k_closest_drivers g s0 r 5
        let s1 := if driver_ids.isEmpty then s0
                  else send_offers s0 rider_id driver_ids
        mark_rider_processed s1 rider_id
      else s0

/-- The engine's public operations, one quiescent step each. -/
inductive MOp
  | addRider (id : Int) (bid : Rat) (loc : Rat × Rat)
  | addDriver (id : Int) (ask : Rat) (loc : Rat × Rat)
  | driverAccept (driver_id rider_id : Int)
  | driverCancel (id : Int)
  | riderCancel (id : Int)
  | processRider
deriving DecidableEq, Repr

/-- Interpretation of one operation. -/
def mstep (g : Geo) (s : Engine) : MOp → Engine
  | MOp.addRider id bid loc => add_rider s id bid loc
  | MOp.addDriver id ask loc => add_driver g s id ask loc
  | MOp.driverAccept did rid => (driver_accept g s did rid).1
  | MOp.driverCancel id => driver_cancel g s id
  | MOp.riderCancel id => rider_cancel s id
  | MOp.processRider => process_rider g s

/-- The freshly constructed engine. -/
def emptyEngine : Engine := ⟨[], [], [], []⟩

/-- Run a sequence of operations from the fresh engine. -/
def mrun (g : Geo) (ops : List MOp) : Engine := ops.foldl (mstep g) emptyEngine

/-- A concrete geography: a single cell, with the L1 plane metric as the
distance oracle. -/
def geoW : Geo :=
  ⟨fun _ => 0, fun c => [c],
   fun a b => (if a.1 ≤ b.1 then b.1 - a.1 else a.1 - b.1) +
              (if a.2 ≤ b.2 then b.2 - a.2 else a.2 - b.2)⟩

/-! ## Claims C1, C7, C8: concrete engine scenarios and map lemmas -/

/-- A registered OPEN driver 1 (ask 5, inbox [2]) and OPEN rider 2 (bid 10,
pending [1]): the successful-accept scenario. -/
def engW : Engine :=
  ⟨[(2, ⟨2, 10, (0, 0), MState.OPEN, [1], false⟩)],
   [(1, ⟨1, 5, (0, 0), MState.OPEN, [2]⟩)],
   [(0, [1])], []⟩

def ops7 : List MOp :=
  [MOp.addRider 1 10 (0, 0),
   MOp.riderCancel 1,
   MOp.addRider 1 10 (0, 0),
   MOp.addDriver 11 5 (6, 0),
   MOp.processRider,
   MOp.addDriver 12 1 (1, 0),
   MOp.addDriver 13 1 (2, 0),
   MOp.addDriver 14 1 (3, 0),
   MOp.addDriver 15 1 (4, 0),
   MOp.addDriver 16 1 (5, 0),
   MOp.processRider,
   MOp.riderCancel 1,
   MOp.addRider 1 2 (0, 0)]

/-- A map whose pointwise action fixes every member is the identity. -/
theorem map_id_of_mem {α : Type} {f : α → α} :
    ∀ {l : List α}, (∀ x ∈ l, f x = x) → l.map f = l
  | [], _ => rfl
  | x :: xs, h => by
    rw [List.map_cons, h x (List.mem_cons_self x xs),
      map_id_of_mem (fun y hy => h y (List.mem_cons_of_mem x hy))]

/-- `mapFind?` misses `k` exactly when no entry carries key `k`. -/
theorem mapFind?_eq_none {α : Type} (m : List (Int × α)) (k : Int) :
    mapFind? m k = none ↔ ∀ p ∈ m, p.1 ≠ k := by
  unfold mapFind?
  rw [Option.map_eq_none', List.find?_eq_none]
  constructor
  · intro h p hp
    exact fun hk => by simpa [hk] using h p hp
  · intro h p hp
    simpa using h p hp

/-- **C8** as stated is FALSE. -/
theorem c8_counterexample :
    ¬ (∀ (g : Geo) (s : Engine) (id : Int) (ask : Rat) (loc : Rat × Rat),
        mapFind? s.drivers id = none →
        driver_cancel g (add_driver g s id ask loc) id = s) := by
  intro h
  have hc := h geoW emptyEngine 1 5 (0, 0) rfl
  revert hc
  decide

/-- **C8** (amended). -/
theorem c8_add_cancel_roundtrip (g : Geo) (s : Engine) (id : Int) (ask : Rat)
    (loc : Rat × Rat)
    (hd : mapFind? s.drivers id = none)
    (hb : ∀ p ∈ s.cells, id ∉ p.2) :
    driver_cancel g (add_driver g s id ask loc) id =
      { s with cells :=
          if s.cells.any (fun p => p.1 == g.cellOf loc) then s.cells
          else s.cells ++ [(g.cellOf loc, [])] } := by
  have hdnone : s.drivers.find? (fun p => p.1 == id) = none :=
    Option.map_eq_none'.mp hd
  have hfind : mapFind? (s.drivers ++ [(id, (⟨id, ask, loc, MState.OPEN, []⟩ : Driver))]) id =
      some ⟨id, ask, loc, MState.OPEN, []⟩ := by
    unfold mapFind?
    rw [List.find?_append, hdnone]
    simp [List.find?]
  have hdrivers : mapErase (s.drivers ++ [(id, (⟨id, ask, loc, MState.OPEN, []⟩ : Driver))]) id
      = s.drivers := by
    unfold mapErase
    rw [List.filter_append]
    have h1 : s.drivers.filter (fun p => p.1 != id) = s.drivers := by
      rw [List.filter_eq_self]
      intro p hp
      have := (mapFind?_eq_none s.drivers id).mp hd p hp
      simpa using this
    have h2 : List.filter (fun p => p.1 != id)
        [((id : Int), (⟨id, ask, loc, MState.OPEN, []⟩ : Driver))] = [] := by
      simp [List.filter]
    rw [h1, h2, List.append_nil]
  have hcells : cellsRemove (cellsPush s.cells (g.cellOf loc) id) (g.cellOf loc) id =
      if s.cells.any (fun p => p.1 == g.cellOf loc) then s.cells
      else s.cells ++ [(g.cellOf loc, [])] := by
    rcases hany : s.cells.any (fun p => p.1 == g.cellOf loc) with _ | _
    · have hpush : cellsPush s.cells (g.cellOf loc) id =
          s.cells ++ [(g.cellOf loc, [id])] := by
        unfold cellsPush
        rw [if_neg (by simp [hany])]
      rw [hpush, if_neg (by simp)]
      unfold cellsRemove
      rw [if_pos (by simp), List.map_append]
      have hmap : s.cells.map (fun p => if p.1 == g.cellOf loc
          then (p.1, p.2.filter (fun x => x != id)) else p) = s.cells := by
        apply map_id_of_mem
        intro p hp
        have hkey : (p.1 == g.cellOf loc) = false := by
          rcases hcontra : (p.1 == g.cellOf loc) with _ | _
          · rfl
          · have hcells2 : (s.cells.any fun q => q.1 == g.cellOf loc) = true :=
              List.any_eq_true.mpr ⟨p, hp, hcontra⟩
            rw [hany] at hcells2
            exact absurd hcells2 (by simp)
        simp [hkey]
      rw [hmap]
      simp [List.filter]
    · have hpush : cellsPush s.cells (g.cellOf loc) id =
          s.cells.map (fun p => if p.1 == g.cellOf loc then (p.1, p.2 ++ [id]) else p) := by
        unfold cellsPush
        rw [if_pos hany]
      rw [hpush, if_pos rfl]
      unfold cellsRemove
      rw [if_pos (by
          rw [List.any_map]
          refine List.any_eq_true.mpr ?_
          rcases List.any_eq_true.mp hany with ⟨p, hp, hpk⟩
          refine ⟨p, hp, ?_⟩
          simp only [Function.comp]
          rw [hpk]
          simpa using hpk), List.map_map]
      apply map_id_of_mem
      intro p hp
      rcases hpk : (p.1 == g.cellOf loc) with _ | _
      · simp [Function.comp, hpk]
      · have hid : p.2.filter (fun x => x != id) = p.2 := by
          rw [List.filter_eq_self]
          intro x hx
          have hxid : x ≠ id := fun hxe => hb p hp (hxe ▸ hx)
          simpa using hxid
        simp [Function.comp, hpk, List.filter_append, List.filter, hid,
          Prod.mk.eta]
  unfold add_driver
  rw [hd]
  unfold driver_cancel
  simp only [hfind]
  simp only [Engine.mk.injEq]
  exact ⟨trivial, hdrivers, hcells, trivial⟩

/-- Witness for the amended C8 round trip. -/
theorem c8_witness :
    mapFind? emptyEngine.drivers 1 = none ∧
    (∀ p ∈ emptyEngine.cells, (1 : Int) ∉ p.2) ∧
    driver_cancel geoW (add_driver geoW emptyEngine 1 5 (0, 0)) 1 =
      { emptyEngine with cells :=
          if emptyEngine.cells.any (fun p => p.1 == geoW.cellOf (0, 0))
          then emptyEngine.cells
          else emptyEngine.cells ++ [(geoW.cellOf (0, 0), [])] } :=
  ⟨rfl, by decide,
   c8_add_cancel_roundtrip geoW emptyEngine 1 5 (0, 0) rfl (by decide)⟩

/-- Erasing a key removes every binding of it. -/
theorem mapFind?_mapErase_same {α : Type} (m : List (Int × α)) (k : Int) :
    mapFind? (mapErase m k) k = none := by
  rw [mapFind?_eq_none]
  intro p hp
  have hmem := List.mem_filter.mp hp
  simpa using hmem.2

/-- **C1**: `driver_accept(driver_id, rider_id)` succeeds iff the driver and
rider are registered, the rider is in the driver's inbox, and both are OPEN;
on failure the engine state is untouched; on success both are removed from
their registries. -/
theorem c1_driver_accept_iff (g : Geo) (s : Engine) (did rid : Int) :
    ((driver_accept g s did rid).2 = true ↔
      ∃ d r, mapFind? s.drivers did = some d ∧ mapFind? s.riders rid = some r ∧
        rid ∈ d.inbox ∧ d.state = MState.OPEN ∧ r.state = MState.OPEN) ∧
    ((driver_accept g s did rid).2 = false → (driver_accept g s did rid).1 = s) ∧
    ((driver_accept g s did rid).2 = true →
      mapFind? (driver_accept g s did rid).1.drivers did = none ∧
      mapFind? (driver_accept g s did rid).1.riders rid = none) := by
  unfold driver_accept
  rcases hfd : mapFind? s.drivers did with _ | d
  · refine ⟨by simp, fun _ => rfl, by simp⟩
  · rcases hfr : mapFind? s.riders rid with _ | r
    · refine ⟨by simp, fun _ => rfl, by simp⟩
    · dsimp only
      by_cases hin : rid ∈ d.inbox
      · rw [if_pos hin]
        by_cases hds : d.state = MState.OPEN
        · rw [if_pos hds]
          by_cases hrs : r.state = MState.OPEN
          · rw [if_pos hrs]
            dsimp only
            refine ⟨?_, ?_, ?_⟩
            · simp only [true_iff]
              exact ⟨d, r, rfl, rfl, hin, hds, hrs⟩
            · intro hcontra
              exact absurd hcontra (by simp)
            · intro _
              unfold cleanup_after_match
              dsimp only
              exact ⟨mapFind?_mapErase_same _ did, mapFind?_mapErase_same _ rid⟩
          · rw [if_neg hrs]
            refine ⟨by simp [hrs], fun _ => rfl, by simp⟩
        · rw [if_neg hds]
          refine ⟨by simp [hds], fun _ => rfl, by simp⟩
      · rw [if_neg hin]
        refine ⟨by simp [hin], fun _ => rfl, by simp⟩

/-- Witness: a registered OPEN driver 1 with rider 2 in its inbox, rider 2
registered OPEN — the accept succeeds and both entries are removed. -/
theorem c1_witness :
    ((driver_accept geoW engW 1 2).2 = true ↔
      ∃ d r, mapFind? engW.drivers 1 = some d ∧ mapFind? engW.riders 2 = some r ∧
        (2 : Int) ∈ d.inbox ∧ d.state = MState.OPEN ∧ r.state = MState.OPEN) ∧
    ((driver_accept geoW engW 1 2).2 = false → (driver_accept geoW engW 1 2).1 = engW) ∧
    ((driver_accept geoW engW 1 2).2 = true →
      mapFind? (driver_accept geoW engW 1 2).1.drivers 1 = none ∧
      mapFind? (driver_accept geoW engW 1 2).1.riders 2 = none) :=
  c1_driver_accept_iff geoW engW 1 2

/-! ## Claim C7: the price-bound invariant over operation sequences -/

/-- Membership in a `mapSet` result comes from a member of the original map,
either rewritten (when its key is `k`) or untouched. -/
theorem mem_mapSet {α : Type} {m : List (Int × α)} {k : Int} {v : α}
    {p : Int × α} (hp : p ∈ mapSet m k v) :
    ∃ q ∈ m, (q.1 = k ∧ p = (k, v)) ∨ (q.1 ≠ k ∧ p = q) := by
  unfold mapSet at hp
  rcases List.mem_map.mp hp with ⟨q, hq, hfq⟩
  refine ⟨q, hq, ?_⟩
  by_cases hk : q.1 = k
  · left
    refine ⟨hk, ?_⟩
    rw [← hfq, if_pos (by simpa using hk)]
  · right
    refine ⟨hk, ?_⟩
    rw [← hfq, if_neg (by simpa using hk)]

/-- `mapSet` preserves the key sequence. -/
theorem mapSet_keys {α : Type} (m : List (Int × α)) (k : Int) (v : α) :
    (mapSet m k v).map Prod.fst = m.map Prod.fst := by
  unfold mapSet
  rw [List.map_map]
  apply List.map_congr_left
  intro q hq
  by_cases hk : q.1 = k
  · simp [Function.comp, hk]
  · simp [Function.comp, if_neg (by simpa using hk)]

/-- A successful lookup returns a binding of the map. -/
theorem mapFind?_some_mem {α : Type} {m : List (Int × α)} {k : Int} {v : α}
    (h : mapFind? m k = some v) : (k, v) ∈ m := by
  unfold mapFind? at h
  rcases Option.map_eq_some'.mp h with ⟨p, hfind, hsnd⟩
  have hk : p.1 = k := by simpa using List.find?_some hfind
  have hmem := List.mem_of_find?_eq_some hfind
  have : p = (k, v) := by
    rcases p with ⟨a, b⟩
    simp only at hk hsnd
    rw [hk, hsnd]
  exact this ▸ hmem

/-- With pairwise-distinct keys the binding of a key is unique. -/
theorem nodup_key_eq {α : Type} {m : List (Int × α)} {k : Int} {v w : α}
    (hn : (m.map Prod.fst).Nodup) (hv : (k, v) ∈ m) (hw : (k, w) ∈ m) : v = w := by
  induction m with
  | nil => cases hv
  | cons p rest ih =>
    rcases List.mem_cons.mp hv with hv1 | hv2 <;>
      rcases List.mem_cons.mp hw with hw1 | hw2
    · rw [← hv1] at hw1
      exact congrArg Prod.snd hw1.symm
    · exfalso
      have hk : p.1 = k := by rw [← hv1]
      have : k ∈ rest.map Prod.fst := List.mem_map.mpr ⟨(k, w), hw2, rfl⟩
      exact (List.nodup_cons.mp hn).1 (hk ▸ this)
    · exfalso
      have hk : p.1 = k := by rw [← hw1]
      have : k ∈ rest.map Prod.fst := List.mem_map.mpr ⟨(k, v), hv2, rfl⟩
      exact (List.nodup_cons.mp hn).1 (hk ▸ this)
    · exact ih (List.nodup_cons.mp hn).2 hv2 hw2

/-- A binding is found whenever keys are pairwise distinct. -/
theorem mapFind?_of_mem_nodup {α : Type} {m : List (Int × α)} {k : Int} {v : α}
    (hn : (m.map Prod.fst).Nodup) (hv : (k, v) ∈ m) : mapFind? m k = some v := by
  rcases hfind : mapFind? m k with _ | w
  · exact absurd rfl ((mapFind?_eq_none m k).mp hfind (k, v) hv)
  · rw [nodup_key_eq hn hv (mapFind?_some_mem hfind)]

/-- Pointwise relation between a driver registry and its update: keys, ids
and asks are untouched, and inboxes only lose members or gain members
satisfying `E`. -/
def DriversPt (E : Int → Prop) (ds ds' : List (Int × Driver)) : Prop :=
  ds'.length = ds.length ∧
  ∀ i (h : i < ds'.length) (h2 : i < ds.length),
    (ds'.get ⟨i, h⟩).1 = (ds.get ⟨i, h2⟩).1 ∧
    (ds'.get ⟨i, h⟩).2.id = (ds.get ⟨i, h2⟩).2.id ∧
    (ds'.get ⟨i, h⟩).2.ask = (ds.get ⟨i, h2⟩).2.ask ∧
    (∀ x ∈ (ds'.get ⟨i, h⟩).2.inbox, x ∈ (ds.get ⟨i, h2⟩).2.inbox ∨ E x)

theorem driversPt_refl (E : Int → Prop) (ds : List (Int × Driver)) :
    DriversPt E ds ds :=
  ⟨rfl, fun i h h2 => ⟨rfl, rfl, rfl, fun x hx => Or.inl hx⟩⟩

theorem driversPt_trans {E : Int → Prop} {a b c : List (Int × Driver)}
    (h1 : DriversPt E a b) (h2 : DriversPt E b c) : DriversPt E a c := by
  obtain ⟨hl1, hp1⟩ := h1
  obtain ⟨hl2, hp2⟩ := h2
  refine ⟨hl2.trans hl1, fun i h hh2 => ?_⟩
  have hb : i < b.length := by omega
  obtain ⟨k1, i1, a1, x1⟩ := hp1 i hb hh2
  obtain ⟨k2, i2, a2, x2⟩ := hp2 i h hb
  refine ⟨k2.trans k1, i2.trans i1, a2.trans a1, fun x hx => ?_⟩
  rcases x2 x hx with hx2 | hx2
  · exact x1 x hx2
  · exact Or.inr hx2

/-- The key sequence of a pointwise update is unchanged. -/
theorem driversPt_keys {E : Int → Prop} {ds ds' : List (Int × Driver)}
    (h : DriversPt E ds ds') : ds'.map Prod.fst = ds.map Prod.fst := by
  obtain ⟨hl, hp⟩ := h
  apply List.ext_get (by simpa using hl)
  intro i h1 h2
  rw [List.get_map, List.get_map]
  exact (hp i (by simpa using h1) (by simpa using h2)).1

/-- One `inboxUpd` step is a pointwise update, provided keys are distinct and
`F` only removes members or adds members satisfying `E`. -/
theorem driversPt_inboxUpd {E : Int → Prop} {F : List Int → List Int}
    (hF : ∀ ib x, x ∈ F ib → x ∈ ib ∨ E x)
    (ds : List (Int × Driver)) (did : Int)
    (hn : (ds.map Prod.fst).Nodup) :
    DriversPt E ds (inboxUpd F ds did) := by
  unfold inboxUpd
  rcases hfind : mapFind? ds did with _ | d
  · exact driversPt_refl E ds
  · have hmem := mapFind?_some_mem hfind
    unfold mapSet
    refine ⟨List.length_map _ _, fun i h h2 => ?_⟩
    rw [List.get_map]
    rcases hkey : ((ds.get ⟨i, h2⟩).1 == did) with _ | _
    · rw [if_neg (by simp [hkey])]
      exact ⟨rfl, rfl, rfl, fun x hx => Or.inl hx⟩
    · rw [if_pos (by simp [hkey])]
      have hkeq : (ds.get ⟨i, h2⟩).1 = did := by simpa using hkey
      have hentry : ((ds.get ⟨i, h2⟩).1, (ds.get ⟨i, h2⟩).2) ∈ ds := by
        simpa using List.get_mem ds i h2
      have hdd : (ds.get ⟨i, h2⟩).2 = d :=
        nodup_key_eq hn (hkeq ▸ hentry) hmem
    -- goal components about (did, {d with inbox := F d.inbox})
      refine ⟨hkeq.symm, ?_, ?_, ?_⟩
      · rw [hdd]
      · rw [hdd]
      · intro x hx
        rw [hdd]
        exact hF d.inbox x hx

/-- Folding pointwise steps over a list of ids is a pointwise update. -/
theorem driversPt_foldl {E : Int → Prop}
    {step : List (Int × Driver) → Int → List (Int × Driver)}
    (hstep : ∀ ds od, (ds.map Prod.fst).Nodup → DriversPt E ds (step ds od)) :
    ∀ (dids : List Int) (ds : List (Int × Driver)),
      (ds.map Prod.fst).Nodup → DriversPt E ds (dids.foldl step ds) := by
  intro dids
  induction dids with
  | nil => exact fun ds _ => driversPt_refl E ds
  | cons od rest ih =>
    intro ds hn
    rw [List.foldl_cons]
    have h1 := hstep ds od hn
    have hn1 : ((step ds od).map Prod.fst).Nodup := by
      rw [driversPt_keys h1]
      exact hn
    exact driversPt_trans h1 (ih (step ds od) hn1)

/-- Transfer membership backwards through a pointwise update. -/
theorem driversPt_mem {E : Int → Prop} {ds ds' : List (Int × Driver)}
    (h : DriversPt E ds ds') {p : Int × Driver} (hp : p ∈ ds') :
    ∃ q ∈ ds, p.1 = q.1 ∧ p.2.id = q.2.id ∧ p.2.ask = q.2.ask ∧
      (∀ x ∈ p.2.inbox, x ∈ q.2.inbox ∨ E x) := by
  obtain ⟨hl, hpt⟩ := h
  rcases List.mem_iff_get.mp hp with ⟨⟨i, hi⟩, hget⟩
  have h2 : i < ds.length := by omega
  obtain ⟨k, hid, ha, hx⟩ := hpt i hi h2
  exact ⟨ds.get ⟨i, h2⟩, List.get_mem ds i h2,
    hget ▸ k, hget ▸ hid, hget ▸ ha, hget ▸ hx⟩

/-- The spec's price-bound invariant, as claimed: every rider in a driver's
inbox respects `ask ≤ bid`. -/
@[reducible] def PriceBound (s : Engine) : Prop :=
  ∀ p ∈ s.drivers, ∀ q ∈ s.riders,
    q.2.id ∈ p.2.inbox → p.2.ask ≤ q.2.bid

/-- The price bound that actually holds: it additionally requires the driver
to still be on the rider's pending list. -/
@[reducible] def PriceBound2 (s : Engine) : Prop :=
  ∀ p ∈ s.drivers, ∀ q ∈ s.riders,
    q.2.id ∈ p.2.inbox → p.1 ∈ q.2.pending_drivers → p.2.ask ≤ q.2.bid

/-- The inductive invariant: registry values carry their own key as id, keys
are pairwise distinct, and the pending-restricted price bound holds. -/
def MatchInv (s : Engine) : Prop :=
  (∀ p ∈ s.drivers, p.2.id = p.1) ∧
  (∀ q ∈ s.riders, q.2.id = q.1) ∧
  (s.drivers.map Prod.fst).Nodup ∧
  (s.riders.map Prod.fst).Nodup ∧
  PriceBound2 s

theorem matchInv_add_rider {s : Engine} (hs : MatchInv s) (id : Int) (bid : Rat)
    (loc : Rat × Rat) : MatchInv (add_rider s id bid loc) := by
  obtain ⟨hdi, hri, hdn, hrn, hpb⟩ := hs
  unfold add_rider
  rcases hfind : mapFind? s.riders id with _ | r
  · refine ⟨hdi, ?_, hdn, ?_, ?_⟩
    · intro q hq
      rcases List.mem_append.mp hq with hq1 | hq2
      · exact hri q hq1
      · rcases List.mem_singleton.mp hq2 with rfl
        rfl
    · rw [List.map_append]
      rw [List.nodup_append]
      refine ⟨hrn, List.nodup_singleton _, ?_⟩
      intro k hk hk2
      have : k = id := by simpa using hk2
      subst this
      rcases List.mem_map.mp hk with ⟨q, hq, hq1⟩
      exact (mapFind?_eq_none s.riders k).mp hfind q hq hq1
    · intro p hp q hq hin hpend
      rcases List.mem_append.mp hq with hq1 | hq2
      · exact hpb p hp q hq1 hin hpend
      · rcases List.mem_singleton.mp hq2 with rfl
        exact absurd hpend (List.not_mem_nil _)
  · exact ⟨hdi, hri, hdn, hrn, hpb⟩

theorem matchInv_add_driver {s : Engine} (hs : MatchInv s) (g : Geo) (id : Int)
    (ask : Rat) (loc : Rat × Rat) : MatchInv (add_driver g s id ask loc) := by
  obtain ⟨hdi, hri, hdn, hrn, hpb⟩ := hs
  unfold add_driver
  rcases hfind : mapFind? s.drivers id with _ | d
  · refine ⟨?_, hri, ?_, hrn, ?_⟩
    · intro p hp
      rcases List.mem_append.mp hp with hp1 | hp2
      · exact hdi p hp1
      · rcases List.mem_singleton.mp hp2 with rfl
        rfl
    · rw [List.map_append, List.nodup_append]
      refine ⟨hdn, List.nodup_singleton _, ?_⟩
      intro k hk hk2
      have : k = id := by simpa using hk2
      subst this
      rcases List.mem_map.mp hk with ⟨p, hp, hp1⟩
      exact (mapFind?_eq_none s.drivers k).mp hfind p hp hp1
    · intro p hp q hq hin hpend
      rcases List.mem_append.mp hp with hp1 | hp2
      · exact hpb p hp1 q hq hin hpend
      · rcases List.mem_singleton.mp hp2 with rfl
        exact absurd hin (List.not_mem_nil _)
  · exact ⟨hdi, hri, hdn, hrn, hpb⟩

theorem matchInv_driver_cancel {s : Engine} (hs : MatchInv s) (g : Geo)
    (did : Int) : MatchInv (driver_cancel g s did) := by
  obtain ⟨hdi, hri, hdn, hrn, hpb⟩ := hs
  unfold driver_cancel
  rcases hfind : mapFind? s.drivers did with _ | d
  · exact ⟨hdi, hri, hdn, hrn, hpb⟩
  · refine ⟨?_, hri, ?_, hrn, ?_⟩
    · intro p hp
      exact hdi p (List.mem_of_mem_filter hp)
    · exact List.Nodup.sublist (List.Sublist.map _ (List.filter_sublist _)) hdn
    · intro p hp q hq hin hpend
      exact hpb p (List.mem_of_mem_filter hp) q hq hin hpend

theorem matchInv_rider_cancel {s : Engine} (hs : MatchInv s) (rid : Int) :
    MatchInv (rider_cancel s rid) := by
  obtain ⟨hdi, hri, hdn, hrn, hpb⟩ := hs
  unfold rider_cancel
  rcases hfind : mapFind? s.riders rid with _ | r
  · exact ⟨hdi, hri, hdn, hrn, hpb⟩
  · have hpt : DriversPt (fun _ => False) s.drivers
        (r.pending_drivers.foldl
          (inboxUpd (fun ib => ib.filter (fun x => x != rid))) s.drivers) :=
      driversPt_foldl
        (fun ds od hn => driversPt_inboxUpd
          (fun ib x hx => Or.inl (List.mem_of_mem_filter hx)) ds od hn)
        r.pending_drivers s.drivers hdn
    refine ⟨?_, ?_, ?_, ?_, ?_⟩
    · intro p hp
      obtain ⟨q, hq, hk, hid, _, _⟩ := driversPt_mem hpt hp
      rw [hid, hk]
      exact hdi q hq
    · intro q hq
      exact hri q (List.mem_of_mem_filter hq)
    · rw [driversPt_keys hpt]
      exact hdn
    · exact List.Nodup.sublist (List.Sublist.map _ (List.filter_sublist _)) hrn
    · intro p hp q hq hin hpend
      obtain ⟨p0, hp0, hk, _, ha, hx⟩ := driversPt_mem hpt hp
      rcases hx q.2.id hin with hin0 | hfalse
      · rw [ha]
        exact hpb p0 hp0 q (List.mem_of_mem_filter hq) hin0 (hk ▸ hpend)
      · exact absurd hfalse (fun h => h)

theorem matchInv_driver_accept {s : Engine} (hs : MatchInv s) (g : Geo)
    (did rid : Int) : MatchInv (driver_accept g s did rid).1 := by
  obtain ⟨hdi, hri, hdn, hrn, hpb⟩ := hs
  unfold driver_accept
  rcases hfd : mapFind? s.drivers did with _ | driver
  · exact ⟨hdi, hri, hdn, hrn, hpb⟩
  · rcases hfr : mapFind? s.riders rid with _ | rider
    · exact ⟨hdi, hri, hdn, hrn, hpb⟩
    · dsimp only
      by_cases hin : rid ∈ driver.inbox
      · rw [if_pos hin]
        by_cases hds : driver.state = MState.OPEN
        · rw [if_pos hds]
          by_cases hrs : rider.state = MState.OPEN
          · rw [if_pos hrs]
            dsimp only
            unfold cleanup_after_match
            dsimp only
            have hdmem : (did, driver) ∈ s.drivers := mapFind?_some_mem hfd
            have hrmem : (rid, rider) ∈ s.riders := mapFind?_some_mem hfr
            have hdid : driver.id = did := hdi (did, driver) hdmem
            have hrid : rider.id = rid := hri (rid, rider) hrmem
            have hkeys1 : (mapSet s.drivers did
                { driver with state := MState.MATCHED }).map Prod.fst
                = s.drivers.map Prod.fst := mapSet_keys _ _ _
            have hnd1 : ((mapSet s.drivers did
                { driver with state := MState.MATCHED }).map Prod.fst).Nodup := by
              rw [hkeys1]; exact hdn
            have hpt : DriversPt (fun _ => False)
                (mapSet s.drivers did { driver with state := MState.MATCHED })
                ((match mapFind? (mapSet s.riders rid
                    { rider with state := MState.MATCHED }) rid with
                  | some r => r.pending_drivers
                  | none => []).foldl
                  (fun ds od => if od == did then ds
                    else inboxUpd (fun ib => ib.filter (fun x => x != rid)) ds od)
                  (mapSet s.drivers did { driver with state := MState.MATCHED })) := by
              refine driversPt_foldl ?_ _ _ hnd1
              intro ds od hn
              rcases hod : (od == did) with _ | _
              · rw [if_neg (by simp [hod])]
                exact driversPt_inboxUpd
                  (fun ib x hx => Or.inl (List.mem_of_mem_filter hx)) ds od hn
              · rw [if_pos (by simp [hod])]
                exact driversPt_refl _ ds
            refine ⟨?_, ?_, ?_, ?_, ?_⟩
            · intro p hp
              have hp2 := List.mem_of_mem_filter hp
              obtain ⟨p1, hp1, hk, hid, _, _⟩ := driversPt_mem hpt hp2
              rw [hid, hk]
              rcases mem_mapSet hp1 with ⟨p0, hp0, hcase⟩
              rcases hcase with ⟨hkeq, hpeq⟩ | ⟨hkne, hpeq⟩
              · rw [hpeq]
                exact hdid
              · rw [hpeq]
                exact hdi p0 hp0
            · intro q hq
              have hq2 := List.mem_of_mem_filter hq
              rcases mem_mapSet hq2 with ⟨q0, hq0, hcase⟩
              rcases hcase with ⟨hkeq, hqeq⟩ | ⟨hkne, hqeq⟩
              · rw [hqeq]
                exact hrid
              · rw [hqeq]
                exact hri q0 hq0
            · refine List.Nodup.sublist (List.Sublist.map _ (List.filter_sublist _)) ?_
              rw [driversPt_keys hpt]
              exact hnd1
            · refine List.Nodup.sublist (List.Sublist.map _ (List.filter_sublist _)) ?_
              rw [mapSet_keys]
              exact hrn
            · intro p hp q hq hin2 hpend
              have hpkey : p.1 ≠ did := by
                have := (List.mem_filter.mp hp).2
                simpa using this
              have hqkey : q.1 ≠ rid := by
                have := (List.mem_filter.mp hq).2
                simpa using this
              have hp2 := List.mem_of_mem_filter hp
              have hq2 := List.mem_of_mem_filter hq
              obtain ⟨p1, hp1, hk, _, ha, hx⟩ := driversPt_mem hpt hp2
              rcases mem_mapSet hp1 with ⟨p0, hp0, hcase⟩
              rcases hcase with ⟨hkeq, hpeq⟩ | ⟨hkne, hpeq⟩
              · exact absurd (hk.trans (by rw [hpeq])) hpkey
              · rcases mem_mapSet hq2 with ⟨q0, hq0, hcase2⟩
                rcases hcase2 with ⟨hkeq2, hqeq⟩ | ⟨hkne2, hqeq⟩
                · exact absurd (by rw [hqeq]) hqkey
                · rcases hx q.2.id hin2 with hin0 | hfalse
                  · have hin0' : q0.2.id ∈ p0.2.inbox := by
                      rw [← hqeq, ← hpeq]
                      exact hin0
                    have hpend' : p0.1 ∈ q0.2.pending_drivers := by
                      rw [← hpeq, ← hk, ← hqeq]
                      exact hpend
                    rw [ha, hpeq, hqeq]
                    exact hpb p0 hp0 q0 hq0 hin0' hpend'
                  · exact absurd hfalse (fun h => h)
          · rw [if_neg hrs]
            exact ⟨hdi, hri, hdn, hrn, hpb⟩
        · rw [if_neg hds]
          exact ⟨hdi, hri, hdn, hrn, hpb⟩
      · rw [if_neg hin]
        exact ⟨hdi, hri, hdn, hrn, hpb⟩

theorem insertPair_perm (p : Rat × Int) :
    ∀ l : List (Rat × Int), (insertPair p l).Perm (p :: l)
  | [] => List.Perm.refl _
  | q :: qs => by
    unfold insertPair
    by_cases hc : p.1 < q.1 ∨ (p.1 = q.1 ∧ p.2 ≤ q.2)
    · rw [if_pos hc]
    · rw [if_neg hc]
      exact ((insertPair_perm p qs).cons q).trans (List.Perm.swap p q qs)

theorem sortPairs_perm : ∀ l : List (Rat × Int), (sortPairs l).Perm l
  | [] => List.Perm.refl _
  | x :: xs => by
    unfold sortPairs
    rw [List.foldr_cons]
    exact (insertPair_perm x _).trans ((sortPairs_perm xs).cons x)

/-- A property preserved by every step of a left fold holds of its result. -/
theorem foldl_preserve {α β : Type} (P : β → Prop) (f : β → α → β)
    (hf : ∀ b a, P b → P (f b a)) :
    ∀ (l : List α) (b : β), P b → P (l.foldl f b)
  | [], _, hb => hb
  | a :: l, b, hb => by
    rw [List.foldl_cons]
    exact foldl_preserve P f hf l (f b a) (hf b a hb)

/-- Every id offered by `find_k_closest_drivers` belongs to a registered
driver whose ask is at most the rider's bid. -/
theorem find_k_closest_drivers_spec (g : Geo) (s : Engine) (r : Rider) (k : Nat) :
    ∀ did ∈ find_k_closest_drivers g s r k,
      ∃ d, mapFind? s.drivers did = some d ∧ d.ask ≤ r.bid := by
  intro did hdid
  unfold find_k_closest_drivers at hdid
  dsimp only at hdid
  rcases List.mem_map.mp hdid with ⟨pr, hpr, hsnd⟩
  have hpr2 := List.take_subset _ _ hpr
  have hpr3 := (sortPairs_perm _).subset hpr2
  rw [← hsnd]
  revert hpr3
  refine foldl_preserve
    (fun acc => ∀ pr2 ∈ acc, ∃ d, mapFind? s.drivers pr2.2 = some d ∧ d.ask ≤ r.bid)
    _ ?_ (g.disk (g.cellOf r.loc)) []
    (fun pr2 hpr2m => absurd hpr2m (List.not_mem_nil _)) pr
  intro acc cell hacc
  dsimp only
  rcases hcf : cellsFind? s.cells cell with _ | bucket
  · exact hacc
  · refine foldl_preserve
      (fun acc2 => ∀ pr2 ∈ acc2, ∃ d, mapFind? s.drivers pr2.2 = some d ∧ d.ask ≤ r.bid)
      _ ?_ bucket acc hacc
    intro acc2 did2 hacc2
    dsimp only
    rcases hfd2 : mapFind? s.drivers did2 with _ | d
    · exact hacc2
    · dsimp only
      by_cases h1 : d.state = MState.OPEN
      · rw [if_pos h1]
        by_cases h2 : d.ask ≤ r.bid
        · rw [if_pos h2]
          by_cases h3 : g.dist r.loc d.loc < 0
          · rw [if_pos h3]
            exact hacc2
          · rw [if_neg h3]
            intro pr2 hpr2m
            rcases List.mem_append.mp hpr2m with hold | hnew
            · exact hacc2 pr2 hold
            · rcases List.mem_singleton.mp hnew with rfl
              exact ⟨d, hfd2, h2⟩
        · rw [if_neg h2]
          exact hacc2
      · rw [if_neg h1]
        exact hacc2

theorem matchInv_send_offers {s : Engine} (hs : MatchInv s) {rid : Int}
    {r : Rider} (hfr : mapFind? s.riders rid = some r) {dids : List Int}
    (hgood : ∀ did ∈ dids, ∃ d, mapFind? s.drivers did = some d ∧ d.ask ≤ r.bid) :
    MatchInv (send_offers s rid dids) := by
  obtain ⟨hdi, hri, hdn, hrn, hpb⟩ := hs
  have hrmem : (rid, r) ∈ s.riders := mapFind?_some_mem hfr
  have hrid : r.id = rid := hri (rid, r) hrmem
  unfold send_offers
  dsimp only
  rw [hfr]
  have hpt : DriversPt (fun x => x = rid) s.drivers
      (dids.foldl (inboxUpd (fun ib => ib ++ [rid])) s.drivers) := by
    refine driversPt_foldl ?_ dids s.drivers hdn
    intro ds od hn
    refine driversPt_inboxUpd ?_ ds od hn
    intro ib x hx
    rcases List.mem_append.mp hx with hold | hnew
    · exact Or.inl hold
    · exact Or.inr (List.mem_singleton.mp hnew)
  refine ⟨?_, ?_, ?_, ?_, ?_⟩
  · intro p hp
    obtain ⟨p1, hp1, hk, hid, _, _⟩ := driversPt_mem hpt hp
    rw [hid, hk]
    exact hdi p1 hp1
  · intro q hq
    rcases mem_mapSet hq with ⟨q0, hq0, hcase⟩
    rcases hcase with ⟨hkeq, hqeq⟩ | ⟨hkne, hqeq⟩
    · rw [hqeq]
      exact hrid
    · rw [hqeq]
      exact hri q0 hq0
  · rw [driversPt_keys hpt]
    exact hdn
  · rw [mapSet_keys]
    exact hrn
  · intro p hp q hq hin hpend
    obtain ⟨p1, hp1, hk, _, ha, hx⟩ := driversPt_mem hpt hp
    rcases mem_mapSet hq with ⟨q0, hq0, hcase⟩
    rcases hcase with ⟨hkeq, hqeq⟩ | ⟨hkne, hqeq⟩
    · rw [hqeq] at hpend
      obtain ⟨d, hfdd, hask⟩ := hgood p.1 hpend
      have hdm : (p.1, d) ∈ s.drivers := mapFind?_some_mem hfdd
      have hp1' : (p.1, p1.2) ∈ s.drivers := by
        rw [hk]
        simpa using hp1
      have hdd : p1.2 = d := nodup_key_eq hdn hp1' hdm
      rw [ha, hdd, hqeq]
      exact hask
    · rcases hx q.2.id hin with hin0 | hxid
      · rw [ha]
        have hin0' : q0.2.id ∈ p1.2.inbox := by
          rw [← hqeq]
          exact hin0
        have hpend0 : p1.1 ∈ q0.2.pending_drivers := by
          rw [← hk, ← hqeq]
          exact hpend
        have hbid : q.2.bid = q0.2.bid := by rw [hqeq]
        rw [hbid]
        exact hpb p1 hp1 q0 hq0 hin0' hpend0
      · exfalso
        have : q.2.id = q.1 := by
          rw [hqeq]
          exact hri q0 hq0
        rw [this] at hxid
        rw [hqeq] at hxid
        exact hkne hxid

theorem matchInv_mark {s : Engine} (hs : MatchInv s) (rid : Int) :
    MatchInv (mark_rider_processed s rid) := by
  obtain ⟨hdi, hri, hdn, hrn, hpb⟩ := hs
  unfold mark_rider_processed
  rcases hfr : mapFind? s.riders rid with _ | r
  · exact ⟨hdi, hri, hdn, hrn, hpb⟩
  · have hrmem : (rid, r) ∈ s.riders := mapFind?_some_mem hfr
    have hrid : r.id = rid := hri (rid, r) hrmem
    refine ⟨hdi, ?_, hdn, ?_, ?_⟩
    · intro q hq
      rcases mem_mapSet hq with ⟨q0, hq0, hcase⟩
      rcases hcase with ⟨hkeq, hqeq⟩ | ⟨hkne, hqeq⟩
      · rw [hqeq]
        exact hrid
      · rw [hqeq]
        exact hri q0 hq0
    · rw [mapSet_keys]
      exact hrn
    · intro p hp q hq hin hpend
      rcases mem_mapSet hq with ⟨q0, hq0, hcase⟩
      rcases hcase with ⟨hkeq, hqeq⟩ | ⟨hkne, hqeq⟩
      · rw [hqeq] at hin hpend ⊢
        exact hpb p hp (rid, r) hrmem hin hpend
      · rw [hqeq] at hin hpend ⊢
        exact hpb p hp q0 hq0 hin hpend

theorem matchInv_process_rider {s : Engine} (hs : MatchInv s) (g : Geo) :
    MatchInv (process_rider g s) := by
  unfold process_rider
  rcases hqe : s.queue with _ | ⟨rid, rest⟩
  · exact hs
  · dsimp only
    have hs0 : MatchInv { s with queue := rest } := hs
    rcases hfr : mapFind? ({ s with queue := rest } : Engine).riders rid with _ | r
    · exact hs0
    · dsimp only
      by_cases hos : r.state = MState.OPEN
      · rw [if_pos hos]
        apply matchInv_mark
        by_cases hemp :
            (find_k_closest_drivers g { s with queue := rest } r 5).isEmpty
        · rw [if_pos hemp]
          exact hs0
        · rw [if_neg hemp]
          exact matchInv_send_offers hs0 hfr
            (find_k_closest_drivers_spec g { s with queue := rest } r 5)
      · rw [if_neg hos]
        exact hs0

theorem matchInv_mstep {s : Engine} (hs : MatchInv s) (g : Geo) (op : MOp) :
    MatchInv (mstep g s op) := by
  cases op with
  | addRider id bid loc => exact matchInv_add_rider hs id bid loc
  | addDriver id ask loc => exact matchInv_add_driver hs g id ask loc
  | driverAccept did rid => exact matchInv_driver_accept hs g did rid
  | driverCancel id => exact matchInv_driver_cancel hs g id
  | riderCancel id => exact matchInv_rider_cancel hs id
  | processRider => exact matchInv_process_rider hs g

theorem matchInv_mrun (g : Geo) (ops : List MOp) : MatchInv (mrun g ops) := by
  unfold mrun
  refine foldl_preserve MatchInv (mstep g)
    (fun s op hs => matchInv_mstep hs g op) ops emptyEngine ?_
  refine ⟨?_, ?_, ?_, ?_, ?_⟩
  · intro p hp
    exact absurd hp (List.not_mem_nil _)
  · intro q hq
    exact absurd hq (List.not_mem_nil _)
  · exact List.nodup_nil
  · exact List.nodup_nil
  · intro p hp
    exact absurd hp (List.not_mem_nil _)

/-- Trace for the C7 witness: one rider, one affordable driver, one worker
pass — leaving rider 1 in driver 11's inbox and driver 11 pending. -/
def ops7w : List MOp :=
  [MOp.addRider 1 10 (0, 0), MOp.addDriver 11 5 (1, 0), MOp.processRider]

/-- **C7** as stated is FALSE: on `ops7`, rider 1 is queued twice (cancel
does not drain the queue), the second worker pass overwrites its pending
list, orphaning driver 11's inbox entry; cancelling sweeps only the current
pending drivers, and re-adding rider 1 with bid 2 < ask 5 leaves a driver
whose inbox holds a rider with a lower bid than its ask. -/
theorem c7_counterexample :
    ¬ (∀ (g : Geo) (ops : List MOp), PriceBound (mrun g ops)) := by
  intro h
  have hc := h geoW ops7
  revert hc
  decide

/-- **C7** (amended): after any operation sequence, observed quiescently, the
price bound `D.ask ≤ R.bid` holds for every driver/rider pair such that `R`
is in `D`'s inbox AND `D` is still on `R`'s pending list; the unrestricted
inbox-only bound is refuted by `c7_counterexample`. -/
theorem c7_price_bound_pending (g : Geo) (ops : List MOp) :
    PriceBound2 (mrun g ops) :=
  (matchInv_mrun g ops).2.2.2.2

/-- Witness: a concrete run where the pending-restricted pair exists and the
amended bound yields 5 ≤ 10. -/
theorem c7_witness :
    ((11 : Int), (⟨11, 5, (1, 0), MState.OPEN, [1]⟩ : Driver)) ∈
      (mrun geoW ops7w).drivers ∧
    ((1 : Int), (⟨1, 10, (0, 0), MState.OPEN, [11], true⟩ : Rider)) ∈
      (mrun geoW ops7w).riders ∧
    (5 : Rat) ≤ 10 :=
  ⟨by decide, by decide,
   c7_price_bound_pending geoW ops7w
     (11, ⟨11, 5, (1, 0), MState.OPEN, [1]⟩) (by decide)
     (1, ⟨1, 10, (0, 0), MState.OPEN, [11], true⟩) (by decide)
     (by decide) (by decide)⟩

end Spec2Proof
